import Mathlib

/-!
Verification development for the includegraph toolkit: a shallow embedding of
the header-dependency-graph scripts (includegraph.py, filtergraph.py,
tgf2graphviz.py) together with proofs and refutations of the specified
properties.

Python strings are modelled as Lean `String`s; the handful of Python string
methods the scripts use (`str.strip`, `str.split`, `str.startswith`,
`str.join`) are re-implemented below over `List Char` so that all
definitions evaluate inside the kernel.  Python `int` is modelled as `Int`
(arbitrary precision, may go negative).
-/

/-- The double-quote character (written via its code point to keep string
literals simple). -/
def dqChar : Char := Char.ofNat 34

/-- The single-quote (apostrophe) character. -/
def sqChar : Char := Char.ofNat 39

/-- The backslash character. -/
def bsChar : Char := Char.ofNat 92

/-- Python whitespace characters relevant to `str.strip()` and `shlex`
(space, tab, carriage return, line feed). -/
def pyWhitespace : List Char := [' ', '\t', '\r', '\n']

/-- Model of Python `str.strip()` restricted to ASCII whitespace: drop
whitespace characters from both ends. -/
def pyStrip (s : String) : String :=
  String.mk (((s.data.dropWhile (fun c => c ∈ pyWhitespace)).reverse.dropWhile
    (fun c => c ∈ pyWhitespace)).reverse)

/-- Model of Python `str.strip(chars)`: drop the given characters from both
ends. Used for `filename.strip("'\x22")` in the TGF decoder. -/
def pyStripChars (chars : List Char) (s : String) : String :=
  String.mk (((s.data.dropWhile (fun c => c ∈ chars)).reverse.dropWhile
    (fun c => c ∈ chars)).reverse)

/-- `stripQuotes` is Python's `s.strip("'\x22")`: remove single and double
quotes from both ends of a token. -/
def stripQuotes (s : String) : String :=
  pyStripChars [sqChar, dqChar] s

/-- Split a character list at every occurrence of the separator character,
keeping empty fields, as Python `str.split(sep)` does for a one-character
separator. -/
def splitCharAux (sep : Char) : List Char → List Char → List (List Char)
  | [], acc => [acc.reverse]
  | c :: cs, acc =>
    if c = sep then acc.reverse :: splitCharAux sep cs []
    else splitCharAux sep cs (c :: acc)

/-- Model of Python `str.split(sep)` for a single-character separator. -/
def pySplitChar (sep : Char) (s : String) : List String :=
  (splitCharAux sep s.data []).map String.mk

/-- Model of Python `str.startswith(prefix)` for a one-character prefix,
which is all the scripts use (the `"#"` separator test). -/
def pyStartsWith (c : Char) (s : String) : Bool :=
  match s.data with
  | [] => false
  | c0 :: _ => c0 = c

/-- Model of Python `sep.join(strings)`. -/
def pyJoin (sep : String) (parts : List String) : String :=
  match parts with
  | [] => ""
  | p :: ps => ps.foldl (fun acc q => acc ++ sep ++ q) p

/-!
## Data model: `IncludeGraphNode` (includegraph.py, lines 35-62)

The Python class is a `@dataclass` with an explicitly defined `__hash__`.
Because the dataclass decorator generates `__eq__` comparing the tuple of
all five fields, while the hand-written `__hash__` hashes only `filename`,
equality and hashing disagree; both are modelled below.
-/

/-- A node in an include dependency graph (the `IncludeGraphNode` dataclass).
Field defaults follow the Python source. -/
structure IncludeGraphNode where
  filename : String
  is_source_file : Bool := true
  is_system_header : Bool := false
  is_first_level_system_header : Bool := false
  num_in_edges : Int := 0
deriving DecidableEq

/-- The `__eq__` generated by `@dataclass`: compares the tuple of all five
fields (the class does not pass `eq=False`, so this is what dict and set
membership use after the hash lookup). -/
def pyDataclassEq (a b : IncludeGraphNode) : Bool :=
  a.filename == b.filename
    && a.is_source_file == b.is_source_file
    && a.is_system_header == b.is_system_header
    && a.is_first_level_system_header == b.is_first_level_system_header
    && a.num_in_edges == b.num_in_edges

/-- The hand-written `__hash__`: `hash(self.filename)`.  The Python hash of a
string is modelled by the string itself (an injective stand-in; only
equality of hashes matters to the claims). -/
def pyHashKey (n : IncludeGraphNode) : String := n.filename

/-!
## Path utilities (pathlib `PurePath`, used by filtergraph.py)

`PurePosixPath` parsing is modelled for the inputs the scripts feed it:
spurious empty segments and single-dot segments are collapsed, a leading
slash becomes the root part `"/"`.  (Double-slash anchors and `..`
segments never occur in these inputs and are not modelled.)
-/

/-- The non-root path segments of a path string, as `PurePosixPath.parts`
minus the root: split on `/`, dropping empty segments and `.` segments. -/
def pathSegments (p : String) : List String :=
  (pySplitChar '/' p).filter (fun s => !(s == "") && !(s == "."))

/-- `PurePosixPath(p).parts`: the root `"/"` (when the path is absolute)
followed by the segments. -/
def pathParts (p : String) : List String :=
  if pyStartsWith '/' p then "/" :: pathSegments p else pathSegments p

/-- `PurePosixPath(p).name`: the final non-root segment, or `""`. -/
def pathName (p : String) : String :=
  (pathSegments p).getLastD ""

/-- `str(PurePosixPath(p))`: the normalized rendering of a path. -/
def pathStr (p : String) : String :=
  let segs := pathSegments p
  if pyStartsWith '/' p then "/" ++ pyJoin "/" segs
  else if segs.isEmpty then "." else pyJoin "/" segs

/-- `str(PurePath(l2) / l1)` for a single part `l2` and a relative suffix
`l1`, as used by `prepend_levels` in filtergraph.py. -/
def pathJoin (l2 l1 : String) : String :=
  if l2 == "/" then "/" ++ l1 else l2 ++ "/" ++ l1

/-!
## Glob matching (filtergraph.py `matches_globs`, lines 205-210)

`PurePath.match` matches the trailing segments of the path against the
pattern's segments using `fnmatch`-style wildcards; an absolute pattern
must match the whole path.  The `fnmatch` wildcards `*` and `?` are
modelled; `[...]` character classes never occur in the claims' patterns
and are treated as literal characters.
-/

/-- One step of `fnmatch` on character lists, with explicit fuel (each call
consumes at least one character of pattern or subject, so
`|pattern| + |subject| + 1` fuel always suffices). -/
def fnmatchAux : Nat → List Char → List Char → Bool
  | 0, _, _ => false
  | _ + 1, [], [] => true
  | _ + 1, [], _ :: _ => false
  | fuel + 1, p :: ps, s =>
    if p = '*' then
      fnmatchAux fuel ps s
        || (match s with
            | [] => false
            | _ :: cs => fnmatchAux fuel (p :: ps) cs)
    else
      match s with
      | [] => false
      | c :: cs => (p = '?' || p = c) && fnmatchAux fuel ps cs

/-- `fnmatch.fnmatchcase` on one path segment. -/
def fnmatchSeg (pattern seg : String) : Bool :=
  fnmatchAux (pattern.data.length + seg.data.length + 1) pattern.data seg.data

/-- `PurePath(s).match(pattern)`: a relative pattern of N segments matches
the last N parts of the path; an absolute pattern must cover every part.
Python raises `ValueError` on an empty pattern; the scripts never pass
one, and the model returns `false` there. -/
def purePathMatch (s : String) (pattern : String) : Bool :=
  let parts := pathParts s
  let patParts := pathParts pattern
  if patParts.isEmpty then false
  else if parts.length < patParts.length then false
  else
    (!(pyStartsWith '/' pattern) || parts.length == patParts.length)
      && ((parts.drop (parts.length - patParts.length)).zip patParts).all
          (fun pr => fnmatchSeg pr.2 pr.1)

/-- `matches_globs(s, patterns)` (filtergraph.py lines 205-210): true when
any pattern matches. -/
def matches_globs (s : String) (patterns : List String) : Bool :=
  patterns.any (fun pattern => purePathMatch s pattern)

/-!
## Path shortening (filtergraph.py lines 107-202)
-/

/-- `all_equal` (filtergraph.py lines 129-132): `itertools.groupby` produces
at most one group exactly when every element equals the first. -/
def all_equal (s : List String) : Bool :=
  match s with
  | [] => true
  | x :: xs => xs.all (fun y => y == x)

/-- One transposition step bounded by fuel; mirrors `zip(*iterables)`, which
stops at the shortest input. -/
def transposeMinAux : Nat → List (List String) → List (List String)
  | 0, _ => []
  | fuel + 1, ls =>
    if ls.any List.isEmpty then []
    else (ls.map (fun l => l.headD "")) :: transposeMinAux fuel (ls.map List.tail)

/-- `zip(*iterables)` over lists of strings: the k-th output level collects
the k-th element of every input, stopping at the shortest input.  `zip()`
of no iterables is empty. -/
def transposeMin (ls : List (List String)) : List (List String) :=
  match ls with
  | [] => []
  | l0 :: rest => transposeMinAux l0.length (l0 :: rest)

/-- The level-collection loop of `shortest_unique_suffixes`: append each
level, stopping after the first level that has a single element or whose
elements are not all equal. -/
def takeLevels : List (List String) → List (List String)
  | [] => []
  | level :: rest =>
    if level.length == 1 || !(all_equal level) then [level]
    else level :: takeLevels rest

/-- `prepend_levels` (filtergraph.py lines 166-167): prepend the deeper level
to each accumulated suffix, pairwise. -/
def prepend_levels (level1 level2 : List String) : List String :=
  (level1.zip level2).map (fun pr => pathJoin pr.2 pr.1)

/-- `shortest_unique_suffixes` (filtergraph.py lines 135-172).  The Python
function receives a `Set[str]` and immediately lists it in unspecified
order; the model takes the list directly.  `functools.reduce` over an
empty sequence raises in Python; that case is unreachable for the inputs
used (every path has at least one part) and is modelled as the empty
result. -/
def shortest_unique_suffixes (paths : List String) : List (String × String) :=
  let path_parts := (paths.map (fun p => (pathParts p).reverse))
  let levels := takeLevels (transposeMin path_parts)
  let suffixes :=
    match levels with
    | [] => []
    | l0 :: rest => rest.foldl prepend_levels l0
  paths.zip suffixes

/-- Add a path to its basename group, creating the group on first sight
(`collections.defaultdict(set)`; the group member list models the set,
deduplicated on insert, in insertion order). -/
def insertIntoGroup (m : List (String × List String)) (name p : String) :
    List (String × List String) :=
  match m with
  | [] => [(name, [p])]
  | (k, v) :: rest =>
    if k == name then (k, if p ∈ v then v else v ++ [p]) :: rest
    else (k, v) :: insertIntoGroup rest name p

/-- `map_basenames_to_absolute` (filtergraph.py lines 107-126): group the
normalized paths by `PurePath.name`. -/
def map_basenames_to_absolute (paths : List String) : List (String × List String) :=
  paths.foldl (fun m p => insertIntoGroup m (pathName p) (pathStr p)) []

/-- `shorten_absolute_paths` (filtergraph.py lines 175-202): singleton
basename groups shorten to the bare basename; colliding groups go through
`shortest_unique_suffixes`. -/
def shorten_absolute_paths (paths : List String) : List (String × String) :=
  (map_basenames_to_absolute paths).foldl
    (fun suffixes pr =>
      match pr.2 with
      | [absolute] => suffixes ++ [(absolute, pr.1)]
      | occurrences => suffixes ++ shortest_unique_suffixes occurrences)
    []

/-!
## The tokenizer: `shlex.split` (used by tgf2graphviz.py)

Model of CPython `shlex.split(line)` with the defaults the scripts rely on:
POSIX mode, whitespace splitting, no comment characters.  Outside quotes a
backslash escapes the next character; single quotes are literal regions;
inside double quotes a backslash escapes only `\x22` and `\x5c`.  An
unterminated quote or trailing escape raises `ValueError`, modelled as
`none`.
-/

/-- The tokenizer's state: between tokens, inside an unquoted token, inside
single quotes, or inside double quotes. -/
inductive ShlexMode
  | start
  | word
  | insq
  | indq
deriving DecidableEq

/-- One pass of the `shlex` state machine over the remaining characters,
carrying the token accumulated so far and the finished tokens in reverse
order. -/
def shlexAux : List Char → ShlexMode → List Char → List String → Option (List String)
  | [], .start, _, acc => some acc.reverse
  | [], .word, tok, acc => some ((String.mk tok :: acc)).reverse
  | [], .insq, _, _ => none
  | [], .indq, _, _ => none
  | c :: cs, .start, _, acc =>
    if c ∈ pyWhitespace then shlexAux cs .start [] acc
    else if c = sqChar then shlexAux cs .insq [] acc
    else if c = dqChar then shlexAux cs .indq [] acc
    else if c = bsChar then
      match cs with
      | [] => none
      | c2 :: cs2 => shlexAux cs2 .word [c2] acc
    else shlexAux cs .word [c] acc
  | c :: cs, .word, tok, acc =>
    if c ∈ pyWhitespace then shlexAux cs .start [] (String.mk tok :: acc)
    else if c = sqChar then shlexAux cs .insq tok acc
    else if c = dqChar then shlexAux cs .indq tok acc
    else if c = bsChar then
      match cs with
      | [] => none
      | c2 :: cs2 => shlexAux cs2 .word (tok ++ [c2]) acc
    else shlexAux cs .word (tok ++ [c]) acc
  | c :: cs, .insq, tok, acc =>
    if c = sqChar then shlexAux cs .word tok acc
    else shlexAux cs .insq (tok ++ [c]) acc
  | c :: cs, .indq, tok, acc =>
    if c = dqChar then shlexAux cs .word tok acc
    else if c = bsChar then
      match cs with
      | [] => none
      | c2 :: cs2 =>
        if c2 = dqChar || c2 = bsChar then shlexAux cs2 .indq (tok ++ [c2]) acc
        else shlexAux cs2 .indq (tok ++ [c, c2]) acc
    else shlexAux cs .indq (tok ++ [c]) acc

/-- `shlex.split(s)` with POSIX rules and whitespace splitting. -/
def shlexSplit (s : String) : Option (List String) :=
  shlexAux s.data .start [] []

/-!
## The interchange decoder: `parse_tgf_graph` (tgf2graphviz.py lines 64-155)
-/

/-- A Python literal as produced by `ast.literal_eval` on the attribute
values that occur in interchange inputs: the capitalized booleans and
integers.  Other literal forms (strings, floats, containers, `None`) are
never produced by the encoder nor exercised by any claim and are modelled
as evaluation failure. -/
inductive PyLit
  | pbool (b : Bool)
  | pint (i : Int)
deriving DecidableEq

/-- Decimal digits to a number; `none` on the empty list or a non-digit. -/
def digitsVal (cs : List Char) : Option Nat :=
  if cs.isEmpty then none
  else cs.foldl
    (fun acc c =>
      match acc with
      | none => none
      | some n => if c.isDigit then some (n * 10 + (c.toNat - 48)) else none)
    (some 0)

/-- `ast.literal_eval` on the value strings of interchange attributes
(whitespace around the literal is tolerated, as in Python). -/
def literal_eval (s : String) : Option PyLit :=
  let t := pyStrip s
  if t == "True" then some (.pbool true)
  else if t == "False" then some (.pbool false)
  else
    match t.data with
    | '-' :: cs => (digitsVal cs).map (fun n => PyLit.pint (-(n : Int)))
    | cs => (digitsVal cs).map (fun n => PyLit.pint (n : Int))

/-- Apply one `lhs=rhs` attribute to a node, as the decoder's
`if getattr(node, lhs, None) is not None: setattr(node, lhs, literal_eval(rhs))`:
unknown keys are skipped, a failing `literal_eval` aborts the node
(`none`).  Python would store a type-mismatched literal unchecked (e.g.
an int into a boolean field); no interchange input exercised here does
that, and the model leaves the field instead. -/
def applyAttr (n : IncludeGraphNode) (lhs rhs : String) : Option IncludeGraphNode :=
  if lhs == "filename" then
    (literal_eval rhs).map (fun _ => n)
  else if lhs == "is_source_file" then
    (literal_eval rhs).map (fun v =>
      match v with
      | .pbool b => { n with is_source_file := b }
      | .pint _ => n)
  else if lhs == "is_system_header" then
    (literal_eval rhs).map (fun v =>
      match v with
      | .pbool b => { n with is_system_header := b }
      | .pint _ => n)
  else if lhs == "is_first_level_system_header" then
    (literal_eval rhs).map (fun v =>
      match v with
      | .pbool b => { n with is_first_level_system_header := b }
      | .pint _ => n)
  else if lhs == "num_in_edges" then
    (literal_eval rhs).map (fun v =>
      match v with
      | .pint i => { n with num_in_edges := i }
      | .pbool b => { n with num_in_edges := if b then 1 else 0 })
  else some n

/-- Apply every `lhs=rhs` pair of a node line's attribute string; an
attribute without exactly one `=` raises, dropping the node (`none`). -/
def applyAttrs : IncludeGraphNode → List String → Option IncludeGraphNode
  | n, [] => some n
  | n, attr :: rest =>
    match (pySplitChar '=' (pyStrip attr)) with
    | [lhs, rhs] =>
      match applyAttr n lhs rhs with
      | some n2 => applyAttrs n2 rest
      | none => none
    | _ => none

/-- The `(lhs, rhs)` pairs a node line's attribute list would feed to
`setattr`, in order, stopping at the first malformed attribute (used to
state which inputs touch which fields). -/
def attrPairs : List String → List (String × String)
  | [] => []
  | attr :: rest =>
    match (pySplitChar '=' (pyStrip attr)) with
    | [lhs, rhs] => (lhs, rhs) :: attrPairs rest
    | _ => []

/-- Parse one (already `strip`ped) node-section line.  The outer `none` is an
uncaught exception of `shlex.split` or of unpacking an empty token list;
the inner `none` is the caught attribute-parsing error that drops the
node. -/
def parseNodeLine (line : String) : Option (Option IncludeGraphNode) :=
  match shlexSplit line with
  | none => none
  | some [] => none
  | some (tok :: attrToks) =>
    let node : IncludeGraphNode := { filename := stripQuotes tok }
    if attrToks.isEmpty then some (some node)
    else
      let joined := stripQuotes (pyJoin ", " attrToks)
      some (applyAttrs node (pySplitChar ',' joined))

/-- The attribute pairs of one raw line, for stating hypotheses about
inputs (mirrors the tokenization steps of `parseNodeLine`). -/
def lineAttrPairs (line : String) : List (String × String) :=
  match shlexSplit (pyStrip line) with
  | some (_ :: attrTok :: more) =>
    attrPairs (pySplitChar ',' (stripQuotes (pyJoin ", " (attrTok :: more))))
  | _ => []

/-- `parse_tgf_node_list` (tgf2graphviz.py lines 64-93): collect nodes until
the `#` separator, also returning the unconsumed lines. -/
def parse_tgf_node_list : List String → Option (List IncludeGraphNode × List String)
  | [] => some ([], [])
  | line :: rest =>
    let l := pyStrip line
    if pyStartsWith '#' l then some ([], rest)
    else
      match parseNodeLine l with
      | none => none
      | some none =>
        match parse_tgf_node_list rest with
        | none => none
        | some (ns, rem) => some (ns, rem)
      | some (some n) =>
        match parse_tgf_node_list rest with
        | none => none
        | some (ns, rem) => some (n :: ns, rem)

/-- Ordered string-keyed dictionary update (`d[k] = v`). -/
def assocSet (m : List (String × IncludeGraphNode)) (k : String)
    (v : IncludeGraphNode) : List (String × IncludeGraphNode) :=
  match m with
  | [] => [(k, v)]
  | (k0, v0) :: rest =>
    if k0 == k then (k0, v) :: rest else (k0, v0) :: assocSet rest k v

/-- Ordered string-keyed dictionary lookup (`d.get(k, None)`). -/
def assocGet (m : List (String × IncludeGraphNode)) (k : String) :
    Option IncludeGraphNode :=
  match m with
  | [] => none
  | (k0, v0) :: rest => if k0 == k then some v0 else assocGet rest k

/-- The graph mapping of the scripts: an ordered dictionary from nodes to
their target sets (sets modelled as insertion-ordered duplicate-free
lists).  Dictionary key identity is the dataclass equality, i.e.
structural equality of all five fields. -/
abbrev PGraph : Type := List (IncludeGraphNode × List IncludeGraphNode)

/-- `graph[node] = set()`: insert or reset a key. -/
def dictSetEmpty (g : PGraph) (n : IncludeGraphNode) : PGraph :=
  match g with
  | [] => [(n, [])]
  | (k, v) :: rest => if k = n then (k, ([] : List IncludeGraphNode)) :: rest
                      else (k, v) :: dictSetEmpty rest n

/-- `graph[source].add(target)`.  A missing source would raise `KeyError`;
that is unreachable in `parse_tgf_graph` (every edge endpoint is a value
of the node dictionary, hence a graph key), and the model leaves the
graph unchanged there. -/
def dictAddTarget (g : PGraph) (s t : IncludeGraphNode) : PGraph :=
  match g with
  | [] => []
  | (k, v) :: rest =>
    if k = s then (k, if t ∈ v then v else v ++ [t]) :: rest
    else (k, v) :: dictAddTarget rest s t

/-- Parse one edge-section line; every failure (tokenizer error, fewer than
two tokens, endpoint not in the node dictionary) is caught in Python and
skips the line. -/
def parseEdgeLine (nodes : List (String × IncludeGraphNode)) (line : String) :
    Option (IncludeGraphNode × IncludeGraphNode) :=
  match shlexSplit (pyStrip line) with
  | none => none
  | some (s :: t :: _) =>
    match assocGet nodes (stripQuotes s), assocGet nodes (stripQuotes t) with
    | some ns, some nt => some (ns, nt)
    | _, _ => none
  | some _ => none

/-- `parse_tgf_edge_list` (tgf2graphviz.py lines 96-121). -/
def parse_tgf_edge_list (lines : List String)
    (nodes : List (String × IncludeGraphNode)) :
    List (IncludeGraphNode × IncludeGraphNode) :=
  lines.foldl
    (fun acc line =>
      match parseEdgeLine nodes line with
      | some e => acc ++ [e]
      | none => acc)
    []

/-- `parse_tgf_graph` (tgf2graphviz.py lines 124-155).  The Python loop
interleaves `nodes[node.filename] = node` and `graph[node] = set()`; the
node dictionary is only read after the loop, so two folds are
equivalent. -/
def parse_tgf_graph (input : List String) : Option PGraph :=
  match parse_tgf_node_list input with
  | none => none
  | some (nodeList, rest) =>
    let nodes := nodeList.foldl (fun m n => assocSet m n.filename n) []
    let graph := nodeList.foldl (fun g n => dictSetEmpty g n) []
    let edges := parse_tgf_edge_list rest nodes
    some (edges.foldl (fun g pr => dictAddTarget g pr.1 pr.2) graph)

/-!
## The interchange encoder: `output_dep_graph_tgf` (includegraph.py 336-348)

The encoder is modelled as producing the list of printed lines (without
their trailing newlines; `readlines` plus `strip` on the decoding side
recovers exactly these for filenames free of newline characters).
Python iterates each target set in unspecified order; the model uses the
insertion order of the modelled set.
-/

/-- The literal `True`/`False` rendering of a Python bool in an f-string. -/
def boolStr (b : Bool) : String := if b then "True" else "False"

/-- A double-quoted token. -/
def quoteTok (s : String) : String :=
  String.mk [dqChar] ++ s ++ String.mk [dqChar]

/-- The attribute payload of a node line (attributes must not contain
commas, per the source comment). -/
def nodeAttrString (n : IncludeGraphNode) : String :=
  "is_source_file=" ++ boolStr n.is_source_file
    ++ ", is_system_header=" ++ boolStr n.is_system_header
    ++ ", is_first_level_system_header=" ++ boolStr n.is_first_level_system_header

/-- One node-section line. -/
def tgfNodeLine (n : IncludeGraphNode) : String :=
  quoteTok n.filename ++ "\t" ++ quoteTok (nodeAttrString n)

/-- One edge-section line. -/
def tgfEdgeLine (s t : String) : String :=
  quoteTok s ++ "\t" ++ quoteTok t

/-- `output_dep_graph_tgf`: node lines, the `#` separator, then one line per
edge. -/
def output_dep_graph_tgf (g : PGraph) : List String :=
  (g.map fun pr => tgfNodeLine pr.1)
    ++ ["#"]
    ++ (g.map fun pr => pr.2.map fun t => tgfEdgeLine pr.1.filename t.filename).flatten

/-!
## The filtering-level graph state (filtergraph.py)

During filtering the node objects are mutable and aliased: the same object
appears as a dictionary key and inside target sets, and
`child.num_in_edges -= 1` is observed through every alias.  Every graph the
filtering code receives (the decoder's output) holds exactly one node
object per filename, so the mutable state is represented filename-keyed:
the key list of the dictionary, the (immutable) boolean attributes, the
mutable in-edge counter, and the target sets, each total over filenames
(values off the key list are irrelevant junk, mirroring objects that are
not in the dictionary).
-/

/-- The three immutable boolean attributes of a node. -/
structure NodeAttrs where
  is_source_file : Bool
  is_system_header : Bool
  is_first_level_system_header : Bool
deriving DecidableEq

/-- The filename-keyed filtering-level graph state. -/
structure FGraph where
  keys : List String
  attr : String → NodeAttrs
  inE : String → Int
  tgt : String → List String

/-- Bridge from the decoder's object-keyed dictionary to the filename-keyed
state (faithful exactly when the dictionary holds one node object per
filename, which is how `parse_tgf_graph` builds it; on a duplicate
filename the first entry wins). -/
def toFGraph (g : PGraph) : FGraph :=
  { keys := g.map (fun pr => pr.1.filename)
    attr := g.foldr
      (fun pr acc => fun f =>
        if f = pr.1.filename then
          ⟨pr.1.is_source_file, pr.1.is_system_header, pr.1.is_first_level_system_header⟩
        else acc f)
      (fun _ => ⟨true, false, false⟩)
    inE := g.foldr
      (fun pr acc => fun f => if f = pr.1.filename then pr.1.num_in_edges else acc f)
      (fun _ => 0)
    tgt := g.foldr
      (fun pr acc => fun f => if f = pr.1.filename then pr.2.map (fun t => t.filename) else acc f)
      (fun _ => []) }

/-!
## Graph traversal primitives: `bfs` and `dfs` (filtergraph.py 213-257)

Both Python functions ignore their `graph` argument (the visitor closes
over the graph), take a start node, and call a stateful visitor that
returns the children to continue into.  The visitor is modelled as a
state-passing function that may fail (`none` models an uncaught Python
exception inside the visitor); iteration order over a returned child set
is the order of the returned list.  Each recursive step consumes one unit
of fuel; the termination theorem below shows that
`|universe| + 2` fuel always drains the queue when the visitor only
returns children from a finite universe.  The result carries the final
visitor state, the list of visited nodes in visit order, and the
unprocessed queue (empty when the traversal ran to completion).
-/

/-- The `for child in children` body shared by both traversals: skip an
already-visited child, otherwise enqueue it (at the queue's end) and mark
it visited immediately. -/
def enqueue (qv : List String × List String) (child : String) :
    List String × List String :=
  if child ∈ qv.2 then qv else (qv.1 ++ [child], child :: qv.2)

/-- The same body for the depth-first stack: push the fresh child on top
(the head models the end of the Python list). -/
def push (sv : List String × List String) (child : String) :
    List String × List String :=
  if child ∈ sv.2 then sv else (child :: sv.1, child :: sv.2)

/-- `bfs` (filtergraph.py lines 213-232): FIFO queue, mark-on-enqueue. -/
def bfs {σ : Type} (vis : σ → String → Option (σ × List String)) :
    Nat → σ → List String → List String → List String →
    Option (σ × List String × List String)
  | 0, s, queue, _, acc => some (s, acc.reverse, queue)
  | _ + 1, s, [], _, acc => some (s, acc.reverse, [])
  | fuel + 1, s, current :: queue, visited, acc =>
    let visited := if current ∈ visited then visited else current :: visited
    match vis s current with
    | none => none
    | some (s2, children) =>
      let qv := children.foldl enqueue (queue, visited)
      bfs vis fuel s2 qv.1 qv.2 (current :: acc)

/-- `dfs` (filtergraph.py lines 235-257): LIFO stack (the head of the list
models the end of the Python list, where it pushes and pops), same
mark-on-enqueue discipline. -/
def dfs {σ : Type} (vis : σ → String → Option (σ × List String)) :
    Nat → σ → List String → List String → List String →
    Option (σ × List String × List String)
  | 0, s, stack, _, acc => some (s, acc.reverse, stack)
  | _ + 1, s, [], _, acc => some (s, acc.reverse, [])
  | fuel + 1, s, current :: stack, visited, acc =>
    let visited := if current ∈ visited then visited else current :: visited
    match vis s current with
    | none => none
    | some (s2, children) =>
      let sv := children.foldl push (stack, visited)
      dfs vis fuel s2 sv.1 sv.2 (current :: acc)

/-- Fuel that drains any traversal whose visitor only returns children drawn
from the graph's key list and target sets. -/
def graphFuel (g : FGraph) : Nat :=
  2 + g.keys.length + (g.keys.map (fun k => (g.tgt k).length)).sum

/-!
## `filter_graph` (filtergraph.py lines 259-336)
-/

/-- The nested deletion-collection visitor
`remove_if_not_included_by_something_else` (lines 282-293): a node with
more than one in-edge, or already deleted, is skipped (no children
returned); otherwise it is collected and its children proposed.  The
collection set is modelled as an insertion-ordered list; the graph is
fixed during collection (two-phase deletion). -/
def remove_if_not_included_by_something_else (g : FGraph)
    (nodes_to_delete : List String) (node : String) :
    List String × List String :=
  if g.inE node > 1 || !(g.keys.contains node) then (nodes_to_delete, [])
  else
    ((if node ∈ nodes_to_delete then nodes_to_delete else nodes_to_delete ++ [node]),
      g.tgt node)

/-- The deletion loop of `remove_subtree_of_matching_node` (lines 300-304):
pop each collected node, decrement every child's in-edge count, delete
the node's key.  Python drains a set in unspecified order; the collection
order is used (the resulting state does not depend on the order). -/
def deleteCollected (g : FGraph) (toDelete : List String) : FGraph :=
  toDelete.foldl
    (fun g n =>
      let children := g.tgt n
      { g with
        keys := g.keys.erase n
        inE := children.foldl
          (fun acc child => fun x => if x = child then acc x - 1 else acc x)
          g.inE })
    g

/-- `remove_subtree_of_matching_node` (lines 295-304): a nested
breadth-first collection pass from the matching node followed by the
deletion loop. -/
def remove_subtree_of_matching_node (g : FGraph) (node : String) : FGraph :=
  match bfs (fun st n => some (remove_if_not_included_by_something_else g st n))
      (graphFuel g) [] [node] [] [] with
  | some (toDelete, _, _) => deleteCollected g toDelete
  | none => g

/-- The outer traversal state of `filter_graph`: the mutating graph and the
set of not-yet-examined nodes. -/
structure FilterState where
  g : FGraph
  unvisited : List String

/-- The outer visitor `remove_nodes_matching_glob` (lines 306-321): mark the
node examined, test the removal predicate, remove its subtree when it
matches, and continue into `graph.get(node, set())` evaluated after the
removal. -/
def remove_nodes_matching_glob (filter_globs : List String)
    (filter_system_headers filter_transitive_system_headers : Bool)
    (st : FilterState) (node : String) : FilterState × List String :=
  let st := { st with unvisited := st.unvisited.erase node }
  let matchesGlob := matches_globs node filter_globs
  let system_header := filter_system_headers && (st.g.attr node).is_system_header
  let transitive_system_header :=
    filter_transitive_system_headers && (st.g.attr node).is_system_header
      && !(st.g.attr node).is_first_level_system_header
  let st :=
    if matchesGlob || system_header || transitive_system_header then
      { st with g := remove_subtree_of_matching_node st.g node }
    else st
  (st, if st.g.keys.contains node then st.g.tgt node else [])

/-- The outer `while unvisited_nodes` loop (lines 323-331).  Python picks an
arbitrary member of the unvisited set as the next root; the model
deterministically picks the first in insertion order.  Each iteration
visits (at least) the root, so `|keys| + 1` fuel drains the set. -/
def filterLoop (filter_globs : List String)
    (filter_system_headers filter_transitive_system_headers : Bool) :
    Nat → FilterState → FilterState
  | 0, st => st
  | fuel + 1, st =>
    match st.unvisited with
    | [] => st
    | root :: _ =>
      match bfs
          (fun s n =>
            some (remove_nodes_matching_glob filter_globs filter_system_headers
              filter_transitive_system_headers s n))
          (graphFuel st.g) st [root] [] [] with
      | some (st2, _, _) =>
        filterLoop filter_globs filter_system_headers filter_transitive_system_headers fuel st2
      | none => st

/-- `filter_graph` (lines 259-336): the outer search-and-remove loop
followed by the final sweep dropping edges whose target is no longer a
graph key. -/
def filter_graph (g : FGraph) (filter_globs : List String)
    (filter_system_headers filter_transitive_system_headers : Bool) : FGraph :=
  let st := filterLoop filter_globs filter_system_headers filter_transitive_system_headers
    (g.keys.length + 1) { g := g, unvisited := g.keys }
  let g2 := st.g
  { g2 with
    tgt := fun k =>
      if g2.keys.contains k then (g2.tgt k).filter (fun t => g2.keys.contains t)
      else g2.tgt k }

/-!
## `recalculate_in_edges` and `filter_all_except` (filtergraph.py 339-375)
-/

/-- The first loop of `recalculate_in_edges` (lines 342-344): reset every
key's counter to zero (the `nodes` name dictionary built alongside is the
key list itself in the filename-keyed state). -/
def recalcZero (ks : List String) (f : String → Int) : String → Int :=
  ks.foldl (fun f n => fun x => if x = n then 0 else f x) f

/-- One `nodes[target.filename].num_in_edges += 1` step of the second loop
(line 348); a target that is not a graph key raises `KeyError`, modelled
as `none`. -/
def recalcBump (keys : List String) (acc : Option (String → Int)) (t : String) :
    Option (String → Int) :=
  match acc with
  | none => none
  | some f =>
    if keys.contains t then some (fun x => if x = t then f x + 1 else f x)
    else none

/-- The per-source inner loop of the second loop (lines 346-348). -/
def recalcStep (g : FGraph) (acc : Option (String → Int)) (s : String) :
    Option (String → Int) :=
  (g.tgt s).foldl (recalcBump g.keys) acc

/-- `recalculate_in_edges` (lines 339-349): zero every key's counter, then
bump the counter of each edge target. -/
def recalculate_in_edges (g : FGraph) : Option FGraph :=
  match g.keys.foldl (recalcStep g) (some (recalcZero g.keys g.inE)) with
  | some f => some { g with inE := f }
  | none => none

/-- The keep-marking state of `filter_all_except`. -/
structure KeepState where
  unvisited : List String
  keep : List String

/-- The `mark_as_keep` visitor (lines 357-361): discard from unvisited, mark
as kept, continue into `graph[node]` — which raises `KeyError` (modelled
as `none`) when the node is not a graph key. -/
def mark_as_keep (g : FGraph) (st : KeepState) (node : String) :
    Option (KeepState × List String) :=
  let st : KeepState :=
    { unvisited := st.unvisited.erase node
      keep := if node ∈ st.keep then st.keep else st.keep ++ [node] }
  if g.keys.contains node then some (st, g.tgt node) else none

/-- The `while unvisited_nodes` loop of `filter_all_except` (lines 363-366):
pop a node (the model pops the first in insertion order), and when it
matches an exclusion glob, mark its whole subtree as kept. -/
def keepLoop (g : FGraph) (exclusion_globs : List String) :
    Nat → KeepState → Option KeepState
  | 0, st => some st
  | fuel + 1, st =>
    match st.unvisited with
    | [] => some st
    | node :: rest =>
      let st : KeepState := { st with unvisited := rest }
      if matches_globs node exclusion_globs then
        match bfs (mark_as_keep g) (graphFuel g) st [node] [] [] with
        | some (st2, _, _) => keepLoop g exclusion_globs fuel st2
        | none => none
      else keepLoop g exclusion_globs fuel st

/-- `filter_all_except` (lines 352-375): mark the kept subtrees, restrict the
graph to the kept keys, drop edges to discarded nodes, and recompute the
in-edge counters. -/
def filter_all_except (g : FGraph) (exclusion_globs : List String) : Option FGraph :=
  match keepLoop g exclusion_globs (g.keys.length + 1)
      { unvisited := g.keys, keep := [] } with
  | none => none
  | some st =>
    let g2 : FGraph := { g with keys := g.keys.filter (fun n => n ∈ st.keep) }
    let g3 : FGraph :=
      { g2 with
        tgt := fun k =>
          if g2.keys.contains k then (g2.tgt k).filter (fun t => g2.keys.contains t)
          else g2.tgt k }
    recalculate_in_edges g3

/-!
## The per-unit graph builder (includegraph.py lines 241-295)

`build_header_dependency_graph` folds over the linemarker sequence;
`None` entries are the unit-boundary sentinels.  The Python list used as
the stack pushes and pops at its end; the Lean list's head models that
end (`stack[-1]` is the head).
-/

/-- A parsed preprocessor linemarker (includegraph.py lines 180-191). -/
structure Linemarker where
  linenumber : String
  filename : String
  flags : List Int
deriving DecidableEq

/-- The builder's loop state. -/
structure BuildState where
  graph : PGraph
  stack : List IncludeGraphNode

/-- Dictionary key membership under dataclass equality. -/
def dictHasKey (g : PGraph) (n : IncludeGraphNode) : Bool :=
  g.any (fun pr => pr.1 = n)

/-- `graph[source].add(target)` on the builder's `defaultdict(set)`: a
missing source key is created with an empty set first. -/
def dictAddTargetD (g : PGraph) (s t : IncludeGraphNode) : PGraph :=
  if dictHasKey g s then dictAddTarget g s t else g ++ [(s, [t])]

/-- The classification block of the builder (includegraph.py lines 255-261):
`is_system_header` comes from flag `3`; `is_first_level_system_header`
starts as `is_system_header` and is cleared when the node under the new
one (the head of the stack, i.e. `stack[-1]`) is itself a system header;
`is_source_file` is cleared (re-set later for the first record of a
unit). -/
def classifyNode (lm : Linemarker) (stack : List IncludeGraphNode) :
    IncludeGraphNode :=
  let is_sys : Bool := (3 : Int) ∈ lm.flags
  let first_level : Bool := is_sys &&
    !(match stack with
      | [] => false
      | top :: _ => top.is_system_header)
  { filename := lm.filename, is_source_file := false, is_system_header := is_sys,
    is_first_level_system_header := first_level, num_in_edges := 0 }

/-- One iteration of the builder's loop over `linemarkers` (includegraph.py
lines 247-293). -/
def build_step (full_system : Bool) (st : BuildState) (lm : Option Linemarker) :
    BuildState :=
  match lm with
  | none => { st with stack := [] }
  | some lm =>
    let flags := lm.flags
    let current : IncludeGraphNode := classifyNode lm st.stack
    let stNew : BuildState × IncludeGraphNode :=
      if st.stack.isEmpty then
        let current := { current with is_source_file := true }
        let graph :=
          if dictHasKey st.graph current then st.graph else dictSetEmpty st.graph current
        (⟨graph, [current]⟩, current)
      else (st, current)
    let st := stNew.1
    let current := stNew.2
    if flags.isEmpty then st
    else
      let st :=
        if (1 : Int) ∈ flags then
          match st.stack with
          | [] => st
          | source :: _ =>
            let target := current
            let stack2 := current :: st.stack
            let graph2 :=
              if full_system || !current.is_system_header
                  || current.is_first_level_system_header then
                let gAdded := dictAddTargetD st.graph source target
                if dictHasKey gAdded target then gAdded else dictSetEmpty gAdded target
              else st.graph
            { graph := graph2, stack := stack2 }
        else st
      if (2 : Int) ∈ flags then { st with stack := st.stack.tail } else st

/-- `build_header_dependency_graph` (includegraph.py lines 241-295). -/
def build_header_dependency_graph (linemarkers : List (Option Linemarker))
    (full_system : Bool) : PGraph :=
  (linemarkers.foldl (build_step full_system) { graph := [], stack := [] }).graph

/-!
## Derived checkers and concrete instances used by the statements below
-/

/-- `graph.get(node, set())`-style lookup of a node's target list in the
object-keyed dictionary. -/
def dictGetTargets (g : PGraph) (n : IncludeGraphNode) : List IncludeGraphNode :=
  match g with
  | [] => []
  | (k, v) :: rest => if k = n then v else dictGetTargets rest n

/-- The decoded image of a node after an encode/decode round trip: the path
and the three boolean attributes survive, the in-edge counter comes back
at its dataclass default. -/
def decodeNode (n : IncludeGraphNode) : IncludeGraphNode :=
  { filename := n.filename, is_source_file := n.is_source_file,
    is_system_header := n.is_system_header,
    is_first_level_system_header := n.is_first_level_system_header,
    num_in_edges := 0 }

/-- A filename that survives the interchange tokenizer unchanged: nonempty,
no whitespace, no quote of either kind, no backslash. -/
def niceNameB (f : String) : Bool :=
  !f.data.isEmpty
    && f.data.all (fun c =>
      !(c ∈ pyWhitespace) && !(c = dqChar) && !(c = sqChar) && !(c = bsChar))

/-- Executable check that no surviving edge dangles: every target of every
graph key is itself a graph key. -/
def noDanglingB (g : FGraph) : Bool :=
  g.keys.all (fun k => (g.tgt k).all (fun t => g.keys.contains t))

/-- Executable graph equality on the filtering-level state: the same key
list and the same target list for every key (in-edge counters and
attributes are not compared). -/
def sameGraphB (a b : FGraph) : Bool :=
  (a.keys == b.keys) && a.keys.all (fun k => a.tgt k == b.tgt k)

/-- Executable check of the in-edge invariant: every key's counter equals
the number of graph keys whose target set contains it. -/
def countsCorrectB (g : FGraph) : Bool :=
  g.keys.all (fun f =>
    g.inE f == ((g.keys.filter (fun s => (g.tgt s).contains f)).length : Int))

/-- The interchange text of the spec's 3-unit scenario graph (the `example4`
fixture of the repository's test suite). -/
def example4Lines : List String :=
  [quoteTok "a.cpp" ++ "\t" ++ quoteTok "is_source_file=True, is_system_header=False, is_first_level_system_header=False",
   quoteTok "b.cpp" ++ "\t" ++ quoteTok "is_source_file=True, is_system_header=False, is_first_level_system_header=False",
   quoteTok "c.cpp" ++ "\t" ++ quoteTok "is_source_file=True, is_system_header=False, is_first_level_system_header=False",
   quoteTok "a.h" ++ "\t" ++ quoteTok "is_source_file=False, is_system_header=False, is_first_level_system_header=False",
   quoteTok "foo.h" ++ "\t" ++ quoteTok "is_source_file=False, is_system_header=False, is_first_level_system_header=False",
   quoteTok "b.h" ++ "\t" ++ quoteTok "is_source_file=False, is_system_header=False, is_first_level_system_header=False",
   quoteTok "c.h" ++ "\t" ++ quoteTok "is_source_file=False, is_system_header=False, is_first_level_system_header=False",
   quoteTok "vector" ++ "\t" ++ quoteTok "is_source_file=False, is_system_header=True, is_first_level_system_header=True",
   quoteTok "string" ++ "\t" ++ quoteTok "is_source_file=False, is_system_header=True, is_first_level_system_header=True",
   "#",
   quoteTok "a.cpp" ++ "\t" ++ quoteTok "a.h",
   quoteTok "a.cpp" ++ "\t" ++ quoteTok "foo.h",
   quoteTok "b.cpp" ++ "\t" ++ quoteTok "b.h",
   quoteTok "b.cpp" ++ "\t" ++ quoteTok "string",
   quoteTok "c.cpp" ++ "\t" ++ quoteTok "c.h",
   quoteTok "a.h" ++ "\t" ++ quoteTok "vector",
   quoteTok "foo.h" ++ "\t" ++ quoteTok "string",
   quoteTok "b.h" ++ "\t" ++ quoteTok "foo.h",
   quoteTok "b.h" ++ "\t" ++ quoteTok "string"]

/-- The filtering-level state obtained by decoding the scenario graph, as
`main` does before `filter_graph` runs. -/
def example4Decoded : FGraph :=
  toFGraph ((parse_tgf_graph example4Lines).getD [])

/-- The scenario graph after `filter_graph` with the single pattern `b.h`
and both boolean flags off. -/
def example4FilterBH : FGraph :=
  filter_graph example4Decoded ["b.h"] false false

/-- The scenario graph with its in-edge counters recomputed before
filtering (what the claim's premise about `foo.h`'s in-edge count being
2 presupposes). -/
def example4Recalc : FGraph :=
  (recalculate_in_edges example4Decoded).getD example4Decoded

/-- The scenario graph filtered by `b.h` after the in-edge recomputation. -/
def example4RecalcFilterBH : FGraph :=
  filter_graph example4Recalc ["b.h"] false false

/-- A filename ending in a single-quote character, used to refute the
unrestricted round-trip claim. -/
def quoteyName : String := "a" ++ String.mk [sqChar]

/-- A one-node graph whose only filename ends in a single quote. -/
def quoteyGraph : PGraph :=
  [({ filename := quoteyName, is_source_file := true, is_system_header := false,
      is_first_level_system_header := false, num_in_edges := 0 }, [])]

/-- A small well-behaved two-node graph with one edge, used as the concrete
round-trip witness. -/
def rtWitnessGraph : PGraph :=
  [({ filename := "/src/main.cpp", is_source_file := true, is_system_header := false,
      is_first_level_system_header := false, num_in_edges := 3 },
    [{ filename := "/usr/include/vector", is_source_file := false, is_system_header := true,
       is_first_level_system_header := true, num_in_edges := 5 }]),
   ({ filename := "/usr/include/vector", is_source_file := false, is_system_header := true,
      is_first_level_system_header := true, num_in_edges := 5 }, [])]

/-- Executable check of the set-representation invariant: every key's
target list is duplicate-free (Python target sets cannot hold
duplicates). -/
def tgtSetsNodupB (g : FGraph) : Bool :=
  g.keys.all (fun k => decide ((g.tgt k).Nodup))

/-- The child function of the spec's cycle-safety scenario:
`foo.h → b.h → foo.h`. -/
def cycleChildren (n : String) : List String :=
  if n == "foo.h" then ["b.h"] else if n == "b.h" then ["foo.h"] else []

/-- A visitor over the cycle scenario (stateless, returning the full child
set, as the exhaustive-walk visitors of the scripts do). -/
def cycleVisitor (_s : Unit) (n : String) : Unit × List String :=
  ((), cycleChildren n)

/-!
## Theorems
-/

/-- C1: on the graph produced by decoding the interchange text of the
3-unit scenario (`a.cpp`/`b.cpp`/`c.cpp`), every in-edge counter is 0
(the decoder never sets them), so the premise of the claim — that
`foo.h` carries in-edge count 2 before the removal — fails, and
`filter_graph` with the single pattern `b.h` deletes not only `b.h` but
also `foo.h` and `string`: every node of the matched subtree passes the
`in_edge_count <= 1` deletion-eligibility test.  This contradicts the
claim (and the repository's own `test_example4_a_star` /
`test_example4_b_star` expectations). -/
theorem filter_graph_decoded_example4_deletes_foo_h :
    example4Decoded.inE "foo.h" = 0
      ∧ "foo.h" ∈ example4Decoded.keys
      ∧ "string" ∈ example4Decoded.keys
      ∧ "b.h" ∉ example4FilterBH.keys
      ∧ "foo.h" ∉ example4FilterBH.keys
      ∧ "string" ∉ example4FilterBH.keys := by
  decide

/-- Supporting evidence for C1's intent: if the in-edge counters are first
recomputed from the edge set (so that `foo.h` really has in-edge count
2), the same `filter_graph` call removes exactly `b.h` and keeps `foo.h`
and `string`, as the spec scenario describes. -/
theorem filter_graph_recalculated_example4_keeps_foo_h :
    example4Recalc.inE "foo.h" = 2
      ∧ "b.h" ∉ example4RecalcFilterBH.keys
      ∧ "foo.h" ∈ example4RecalcFilterBH.keys
      ∧ "string" ∈ example4RecalcFilterBH.keys := by
  decide

/-- C4: two `IncludeGraphNode` instances with the same filename but a
different in-edge counter hash alike (the hand-written `__hash__` uses
only the filename) yet are *not* equal under the dataclass-generated
`__eq__`, which compares all five fields — so node equality is not
determined solely by the path, contradicting the claim and the
`__hash__` docstring ("Determine node uniqueness only by its
filename"). -/
theorem dataclass_eq_not_filename_only :
    pyHashKey { filename := "a.h" }
        = pyHashKey { filename := "a.h", num_in_edges := 1 }
      ∧ pyDataclassEq { filename := "a.h" } { filename := "a.h", num_in_edges := 1 }
        = false
      ∧ pyDataclassEq { filename := "a.h" } { filename := "a.h", is_system_header := true }
        = false := by
  decide

/-- C8: on the three paths `/x/b/q/c.h`, `/y/b/q/c.h`, `/z/c/q/c.h` (one
basename group), `shortest_unique_suffixes` stops as soon as a level is
not all-equal — at `(b, b, c)` — rather than continuing until the suffix
tuples are pairwise distinct, and returns the *same* suffix `b/q/c.h`
for the two distinct paths `/x/b/q/c.h` and `/y/b/q/c.h`.  The claimed
stopping rule (pairwise distinctness) would have walked one level
further; the output contradicts the function's own docstring ("Find the
shortest unique suffix"). -/
theorem shortest_unique_suffixes_not_pairwise_distinct :
    shortest_unique_suffixes ["/x/b/q/c.h", "/y/b/q/c.h", "/z/c/q/c.h"]
        = [("/x/b/q/c.h", "b/q/c.h"), ("/y/b/q/c.h", "b/q/c.h"),
           ("/z/c/q/c.h", "c/q/c.h")]
      ∧ ("/x/b/q/c.h" : String) ≠ "/y/b/q/c.h" := by
  decide

/-- C2 (counterexample): a graph whose only node's path ends in a
single-quote character does not round-trip: the encoder quotes the name
verbatim, the tokenizer keeps the inner quote, and the decoder's
`strip("'\x22")` then removes it, so the decoded graph's node path is `a`
rather than the original two-character name. -/
theorem tgf_round_trip_counterexample :
    (parse_tgf_graph (output_dep_graph_tgf quoteyGraph)).map
        (fun g => g.map (fun pr => pr.1.filename)) = some ["a"]
      ∧ quoteyGraph.map (fun pr => pr.1.filename) = [quoteyName]
      ∧ ("a" : String) ≠ quoteyName := by
  decide

/-- The final sweep of both filtering operations leaves no dangling edge:
for any key list and target map, filtering every key's target list down
to targets that are keys satisfies the invariant. -/
theorem sweep_no_dangling (keys : List String) (attr : String → NodeAttrs)
    (inE : String → Int) (tgt : String → List String) :
    noDanglingB
      ⟨keys, attr, inE,
        fun k => if keys.contains k then (tgt k).filter (fun t => keys.contains t)
                 else tgt k⟩ = true := by
  unfold noDanglingB
  rw [List.all_eq_true]
  intro k hk
  rw [List.all_eq_true]
  intro t ht
  have hk2 : keys.contains k = true := List.elem_iff.mpr hk
  simp only [hk2, if_true] at ht
  exact (List.mem_filter.mp ht).2

/-- `recalculate_in_edges` only rewrites the in-edge counters: on success
the key list and the target map are unchanged. -/
theorem recalculate_in_edges_keys_tgt (g r : FGraph)
    (h : recalculate_in_edges g = some r) : r.keys = g.keys ∧ r.tgt = g.tgt := by
  unfold recalculate_in_edges at h
  split at h
  · cases h
    exact ⟨rfl, rfl⟩
  · exact Option.noConfusion h

/-- `noDanglingB` only reads the key list and the target map. -/
theorem noDanglingB_eq_of (r s : FGraph) (hk : r.keys = s.keys)
    (ht : r.tgt = s.tgt) : noDanglingB r = noDanglingB s := by
  unfold noDanglingB
  rw [hk, ht]

/-- C3: neither filtering operation ever returns a dangling edge — every
target of every surviving key is itself a key, for every input graph and
every argument combination (for `filter_all_except`, whenever the call
returns at all rather than raising `KeyError`). -/
theorem filtering_no_dangling_edges :
    (∀ (g : FGraph) (globs : List String) (fsh ftsh : Bool),
        noDanglingB (filter_graph g globs fsh ftsh) = true)
      ∧ (∀ (g : FGraph) (globs : List String),
        (filter_all_except g globs).elim True (fun r => noDanglingB r = true)) := by
  constructor
  · intro g globs fsh ftsh
    exact sweep_no_dangling _ _ _ _
  · intro g globs
    unfold filter_all_except
    split
    · trivial
    · rename_i st _
      cases hr : recalculate_in_edges
          { keys := (g.keys.filter (fun n => n ∈ st.keep)), attr := g.attr, inE := g.inE,
            tgt := fun k =>
              if (g.keys.filter (fun n => n ∈ st.keep)).contains k then
                (g.tgt k).filter (fun t => (g.keys.filter (fun n => n ∈ st.keep)).contains t)
              else g.tgt k } with
      | none => simp [hr]
      | some r =>
        simp only [hr, Option.elim]
        obtain ⟨hk, ht⟩ := recalculate_in_edges_keys_tgt _ _ hr
        rw [noDanglingB_eq_of r _ hk ht]
        exact sweep_no_dangling _ _ _ _

/-- The traversal only changes the visitor state in ways the visitor itself
does: any projection every visitor step preserves is preserved by the
whole breadth-first run. -/
theorem bfs_state_proj {σ α : Type} (proj : σ → α)
    (vis : σ → String → Option (σ × List String))
    (hvis : ∀ s n r, vis s n = some r → proj r.1 = proj s) :
    ∀ (fuel : Nat) (s : σ) (queue visited acc : List String) r,
      bfs vis fuel s queue visited acc = some r → proj r.1 = proj s := by
  intro fuel
  induction fuel with
  | zero =>
    intro s q v a r h
    unfold bfs at h
    cases h
    rfl
  | succ n ih =>
    intro s q v a r h
    cases q with
    | nil =>
      unfold bfs at h
      cases h
      rfl
    | cons c rest =>
      unfold bfs at h
      cases hv : vis s c with
      | none => rw [hv] at h; exact Option.noConfusion h
      | some pr =>
        obtain ⟨s2, children⟩ := pr
        rw [hv] at h
        simp only at h
        have h2 := ih _ _ _ _ _ h
        rw [h2, hvis s c (s2, children) hv]

/-- With an empty pattern list and both boolean flags off, the outer
visitor of `filter_graph` never touches the graph component. -/
theorem remove_nodes_matching_glob_empty_preserves (s : FilterState) (n : String) :
    (remove_nodes_matching_glob [] false false s n).1.g = s.g := by
  unfold remove_nodes_matching_glob matches_globs
  simp

/-- With an empty pattern list and both boolean flags off, the whole outer
loop of `filter_graph` leaves the graph component unchanged. -/
theorem filterLoop_empty_preserves :
    ∀ (fuel : Nat) (st : FilterState), (filterLoop [] false false fuel st).g = st.g := by
  intro fuel
  induction fuel with
  | zero => intro st; rfl
  | succ n ih =>
    intro st
    unfold filterLoop
    cases hq : st.unvisited with
    | nil => rfl
    | cons root rest =>
      cases hb : bfs
          (fun s n =>
            some (remove_nodes_matching_glob [] false false s n))
          (graphFuel st.g) st [root] [] [] with
      | none => simp only [hb]
      | some r =>
        obtain ⟨st2, vl, q⟩ := r
        simp only [hb]
        rw [ih st2]
        exact bfs_state_proj FilterState.g _
          (fun s n r h => by
            cases h
            exact remove_nodes_matching_glob_empty_preserves s n)
          _ _ _ _ _ _ hb

/-- C5: `filter_graph` with an empty pattern list and both boolean flags
false is the identity on any graph satisfying the no-dangling-edge data
model invariant: the key list and every key's target list are returned
unchanged. -/
theorem filter_graph_empty_identity (g : FGraph) (h : noDanglingB g = true) :
    sameGraphB (filter_graph g [] false false) g = true := by
  unfold filter_graph
  simp only []
  rw [filterLoop_empty_preserves (g.keys.length + 1) { g := g, unvisited := g.keys }]
  unfold sameGraphB
  rw [Bool.and_eq_true]
  constructor
  · simp
  · rw [List.all_eq_true]
    intro k hk
    have hk2 : g.keys.contains k = true := List.elem_iff.mpr hk
    simp only [hk2, if_true]
    have hnd : ∀ t ∈ g.tgt k, g.keys.contains t = true := by
      unfold noDanglingB at h
      rw [List.all_eq_true] at h
      have := h k hk
      rw [List.all_eq_true] at this
      exact this
    rw [List.filter_eq_self.mpr hnd]
    simp

/-- Witness for C5 at the decoded scenario graph. -/
theorem filter_graph_empty_identity_witness :
    noDanglingB example4Decoded = true
      ∧ sameGraphB (filter_graph example4Decoded [] false false) example4Decoded = true :=
  ⟨by decide, filter_graph_empty_identity example4Decoded (by decide)⟩

/-- Peeling one key off the zeroing loop. -/
theorem recalcZero_cons (n : String) (rest : List String) (f : String → Int) :
    recalcZero (n :: rest) f = recalcZero rest (fun x => if x = n then 0 else f x) := rfl

/-- The zeroing loop leaves filenames outside the key list untouched. -/
theorem recalcZero_not_mem :
    ∀ (ks : List String) (f : String → Int) (x : String), x ∉ ks →
      recalcZero ks f x = f x := by
  intro ks
  induction ks with
  | nil => intro f x _; rfl
  | cons n rest ih =>
    intro f x h
    rw [recalcZero_cons, ih _ x (fun hm => h (List.mem_cons_of_mem _ hm))]
    have hn : ¬(x = n) := fun he => h (by rw [he]; exact List.mem_cons_self n rest)
    simp only [if_neg hn]

/-- The zeroing loop sets every key's counter to zero. -/
theorem recalcZero_mem :
    ∀ (ks : List String) (f : String → Int) (x : String), x ∈ ks →
      recalcZero ks f x = 0 := by
  intro ks
  induction ks with
  | nil => intro f x h; cases h
  | cons n rest ih =>
    intro f x h
    by_cases hr : x ∈ rest
    · rw [recalcZero_cons]
      exact ih _ x hr
    · have hx : x = n := by
        rcases List.mem_cons.mp h with h1 | h2
        · exact h1
        · exact absurd h2 hr
      rw [recalcZero_cons, recalcZero_not_mem rest _ x hr, if_pos hx]

/-- The bump loop over one target list: when every target is a key it
succeeds, and the final counter of any filename grows by the number of
occurrences of that filename in the list. -/
theorem recalcBump_fold (keys : List String) :
    ∀ (ts : List String) (f : String → Int),
      (∀ t ∈ ts, keys.contains t = true) →
      ∃ F, ts.foldl (recalcBump keys) (some f) = some F
        ∧ ∀ x, F x = f x + (ts.count x : Int) := by
  intro ts
  induction ts with
  | nil => intro f _; exact ⟨f, rfl, by simp⟩
  | cons t ts ih =>
    intro f h
    have hct : keys.contains t = true := h t (List.mem_cons_self t ts)
    have hb : recalcBump keys (some f) t
        = some (fun x => if x = t then f x + 1 else f x) := by
      unfold recalcBump
      rw [hct]
      simp
    rw [List.foldl_cons, hb]
    obtain ⟨F, hF, hFx⟩ := ih (fun x => if x = t then f x + 1 else f x)
      (fun t2 ht2 => h t2 (List.mem_cons_of_mem _ ht2))
    refine ⟨F, hF, fun x => ?_⟩
    rw [hFx x]
    by_cases hx : x = t
    · subst hx
      simp [List.count_cons]
      ring
    · simp [List.count_cons, hx]

/-- The outer bump loop over all sources: the final counter of any filename
grows by the total number of times it occurs in the sources' target
lists. -/
theorem recalcStep_fold (g : FGraph) :
    ∀ (ks : List String) (f : String → Int),
      (∀ s ∈ ks, ∀ t ∈ g.tgt s, g.keys.contains t = true) →
      ∃ F, ks.foldl (recalcStep g) (some f) = some F
        ∧ ∀ x, F x = f x + ((ks.map (fun s => ((g.tgt s).count x : Int))).sum) := by
  intro ks
  induction ks with
  | nil => intro f _; exact ⟨f, rfl, by simp⟩
  | cons s ks ih =>
    intro f h
    obtain ⟨f1, hf1, hf1x⟩ := recalcBump_fold g.keys (g.tgt s) f
      (h s (List.mem_cons_self s ks))
    have hstep : recalcStep g (some f) s = some f1 := hf1
    rw [List.foldl_cons, hstep]
    obtain ⟨F, hF, hFx⟩ := ih f1 (fun s2 hs2 => h s2 (List.mem_cons_of_mem _ hs2))
    refine ⟨F, hF, fun x => ?_⟩
    rw [hFx x, hf1x x]
    simp only [List.map_cons, List.sum_cons]
    ring

/-- For a duplicate-free list, the occurrence count of any element is its
membership indicator. -/
theorem count_indicator (l : List String) (x : String) (h : l.Nodup) :
    (l.count x : Int) = if l.contains x then 1 else 0 := by
  by_cases hm : x ∈ l
  · rw [List.count_eq_one_of_mem h hm, if_pos (List.elem_iff.mpr hm)]
    simp
  · rw [List.count_eq_zero_of_not_mem hm]
    rw [if_neg (fun hc => hm (List.elem_iff.mp hc))]
    simp

/-- Summing a 0/1 indicator over a list counts the matching elements. -/
theorem indicator_sum (ks : List String) (p : String → Bool) :
    ((ks.map (fun s => if p s then (1 : Int) else 0)).sum)
      = ((ks.filter p).length : Int) := by
  induction ks with
  | nil => simp
  | cons k ks ih =>
    by_cases hp : p k
    · simp [List.filter_cons, hp, ih]
      ring
    · simp [List.filter_cons, hp, ih]

/-- After a successful `recalculate_in_edges`, every key's counter equals
the number of graph keys whose target set contains it (targets are
duplicate-free sets, and the no-dangling invariant keeps the `KeyError`
branch unreachable). -/
theorem recalc_correct (g : FGraph)
    (hT : ∀ k ∈ g.keys, (g.tgt k).Nodup) (hnd : noDanglingB g = true) :
    (recalculate_in_edges g).elim False (fun r => countsCorrectB r = true) := by
  have hok : ∀ s ∈ g.keys, ∀ t ∈ g.tgt s, g.keys.contains t = true := by
    unfold noDanglingB at hnd
    rw [List.all_eq_true] at hnd
    intro s hs t ht
    have := hnd s hs
    rw [List.all_eq_true] at this
    exact this t ht
  obtain ⟨F, hF, hFx⟩ := recalcStep_fold g g.keys (recalcZero g.keys g.inE) hok
  unfold recalculate_in_edges
  rw [hF]
  simp only [Option.elim]
  unfold countsCorrectB
  rw [List.all_eq_true]
  intro x hx
  show (F x == ((g.keys.filter (fun s => (g.tgt s).contains x)).length : Int)) = true
  rw [beq_iff_eq, hFx x, recalcZero_mem _ _ _ hx]
  rw [List.map_congr_left (fun s hs => count_indicator (g.tgt s) x (hT s hs))]
  rw [indicator_sum g.keys (fun s => (g.tgt s).contains x)]
  ring

/-- C9: after a full in-edge recomputation — by `recalculate_in_edges`
directly, or at the end of `filter_all_except` — every node's stored
in-edge count equals the number of graph keys whose target set contains
it (keys of a Python dictionary are distinct, so this is the number of
distinct including nodes). -/
theorem recalculated_in_edges_correct (g : FGraph)
    (hT : tgtSetsNodupB g = true) (hnd : noDanglingB g = true) :
    (recalculate_in_edges g).elim False (fun r => countsCorrectB r = true)
      ∧ ∀ globs : List String,
        (filter_all_except g globs).elim True (fun r => countsCorrectB r = true) := by
  have hT2 : ∀ k ∈ g.keys, (g.tgt k).Nodup := by
    unfold tgtSetsNodupB at hT
    rw [List.all_eq_true] at hT
    intro k hk
    exact of_decide_eq_true (hT k hk)
  constructor
  · exact recalc_correct g hT2 hnd
  · intro globs
    unfold filter_all_except
    split
    · trivial
    · rename_i st _
      have hT3 : ∀ k ∈ (g.keys.filter (fun n => n ∈ st.keep)),
          ((if (g.keys.filter (fun n => n ∈ st.keep)).contains k then
              (g.tgt k).filter (fun t => (g.keys.filter (fun n => n ∈ st.keep)).contains t)
            else g.tgt k) : List String).Nodup := by
        intro k hk
        have hkg : k ∈ g.keys := (List.mem_filter.mp hk).1
        split
        · exact (hT2 k hkg).filter _
        · exact hT2 k hkg
      have h3 := recalc_correct
        { keys := g.keys.filter (fun n => n ∈ st.keep), attr := g.attr, inE := g.inE,
          tgt := fun k =>
            if (g.keys.filter (fun n => n ∈ st.keep)).contains k then
              (g.tgt k).filter (fun t => (g.keys.filter (fun n => n ∈ st.keep)).contains t)
            else g.tgt k }
        hT3 (sweep_no_dangling _ _ _ _)
      revert h3
      cases hr : recalculate_in_edges
          { keys := g.keys.filter (fun n => n ∈ st.keep), attr := g.attr, inE := g.inE,
            tgt := fun k =>
              if (g.keys.filter (fun n => n ∈ st.keep)).contains k then
                (g.tgt k).filter (fun t => (g.keys.filter (fun n => n ∈ st.keep)).contains t)
              else g.tgt k } with
      | none => intro h3; exact h3.elim
      | some r => intro h3; exact h3

/-- Witness for C9 at the decoded scenario graph, with the keep-only part
instantiated at the pattern `b.h`. -/
theorem recalculated_in_edges_correct_witness :
    tgtSetsNodupB example4Decoded = true
      ∧ noDanglingB example4Decoded = true
      ∧ (recalculate_in_edges example4Decoded).elim False
          (fun r => countsCorrectB r = true)
      ∧ (filter_all_except example4Decoded ["b.h"]).elim True
          (fun r => countsCorrectB r = true) :=
  ⟨by decide, by decide,
    (recalculated_in_edges_correct example4Decoded (by decide) (by decide)).1,
    (recalculated_in_edges_correct example4Decoded (by decide) (by decide)).2 ["b.h"]⟩


/-- An attribute assignment whose key is not `num_in_edges` leaves the
in-edge counter unchanged. -/
theorem applyAttr_num (n n2 : IncludeGraphNode) (lhs rhs : String)
    (h : applyAttr n lhs rhs = some n2) (hl : lhs ≠ "num_in_edges") :
    n2.num_in_edges = n.num_in_edges := by
  unfold applyAttr at h
  split_ifs at h with h1 h2 h3 h4 h5
  · cases hev : literal_eval rhs with
    | none => rw [hev] at h; exact Option.noConfusion h
    | some v =>
      rw [hev] at h
      simp only [Option.map] at h
      cases h
      rfl
  · cases hev : literal_eval rhs with
    | none => rw [hev] at h; exact Option.noConfusion h
    | some v =>
      rw [hev] at h
      simp only [Option.map] at h
      cases h
      cases v <;> rfl
  · cases hev : literal_eval rhs with
    | none => rw [hev] at h; exact Option.noConfusion h
    | some v =>
      rw [hev] at h
      simp only [Option.map] at h
      cases h
      cases v <;> rfl
  · cases hev : literal_eval rhs with
    | none => rw [hev] at h; exact Option.noConfusion h
    | some v =>
      rw [hev] at h
      simp only [Option.map] at h
      cases h
      cases v <;> rfl
  · exact absurd (by simpa using h5) hl
  · cases h
    rfl

/-- Peeling one well-formed attribute off `attrPairs`. -/
theorem attrPairs_cons (attr : String) (rest : List String) (lhs rhs : String)
    (hsp : pySplitChar '=' (pyStrip attr) = [lhs, rhs]) :
    attrPairs (attr :: rest) = (lhs, rhs) :: attrPairs rest := by
  conv_lhs => unfold attrPairs
  split
  · rename_i l r heq
    rw [hsp] at heq
    cases heq
    rfl
  · rename_i hne
    exact absurd hsp (by intro hc; exact hne lhs rhs hc)

/-- A whole attribute list that never assigns `num_in_edges` leaves the
in-edge counter unchanged. -/
theorem applyAttrs_num :
    ∀ (attrs : List String) (n n2 : IncludeGraphNode),
      applyAttrs n attrs = some n2 →
      (∀ pr ∈ attrPairs attrs, pr.1 ≠ "num_in_edges") →
      n2.num_in_edges = n.num_in_edges := by
  intro attrs
  induction attrs with
  | nil =>
    intro n n2 h _
    unfold applyAttrs at h
    cases h
    rfl
  | cons attr rest ih =>
    intro n n2 h hp
    unfold applyAttrs at h
    split at h
    · rename_i lhs rhs heq
      rw [attrPairs_cons attr rest lhs rhs heq] at hp
      split at h
      · rename_i n3 heq2
        have hl : lhs ≠ "num_in_edges" := hp (lhs, rhs) (List.mem_cons_self _ _)
        have hrec := ih n3 n2 h (fun pr hpr => hp pr (List.mem_cons_of_mem _ hpr))
        rw [hrec, applyAttr_num n n3 lhs rhs heq2 hl]
      · exact Option.noConfusion h
    · exact Option.noConfusion h

/-- A node line whose attributes never assign `num_in_edges` decodes to a
node with the dataclass-default in-edge counter 0. -/
theorem parseNodeLine_num (l : String) (n : IncludeGraphNode)
    (h : parseNodeLine (pyStrip l) = some (some n))
    (hp : ∀ pr ∈ lineAttrPairs l, pr.1 ≠ "num_in_edges") :
    n.num_in_edges = 0 := by
  unfold parseNodeLine at h
  unfold lineAttrPairs at hp
  split at h
  · exact Option.noConfusion h
  · exact Option.noConfusion h
  · rename_i tok attrToks heq
    rw [heq] at hp
    split at h
    · cases h
      rename_i hemp
      rfl
    · cases attrToks with
      | nil => rename_i hemp; exact absurd rfl hemp
      | cons a more =>
        have h2 := Option.some.inj h
        cases ha : applyAttrs { filename := stripQuotes tok }
            (pySplitChar ',' (stripQuotes (pyJoin ", " (a :: more)))) with
        | none => rw [ha] at h2; exact Option.noConfusion h2
        | some n3 =>
          rw [ha] at h2
          cases h2
          exact applyAttrs_num _ _ _ ha hp

/-- Every node yielded by the node-section parser has in-edge counter 0,
provided no node line assigns `num_in_edges`. -/
theorem parse_node_list_num :
    ∀ (lines : List String) (ns : List IncludeGraphNode) (rem : List String),
      parse_tgf_node_list lines = some (ns, rem) →
      (∀ line ∈ lines, ∀ pr ∈ lineAttrPairs line, pr.1 ≠ "num_in_edges") →
      ∀ n ∈ ns, n.num_in_edges = 0 := by
  intro lines
  induction lines with
  | nil =>
    intro ns rem h _
    unfold parse_tgf_node_list at h
    cases h
    intro n hn
    cases hn
  | cons line rest ih =>
    intro ns rem h hp
    unfold parse_tgf_node_list at h
    by_cases hsh : pyStartsWith '#' (pyStrip line) = true
    · rw [if_pos hsh] at h
      cases h
      intro n hn
      cases hn
    · rw [if_neg hsh] at h
      split at h
      · exact Option.noConfusion h
      · rename_i heqn
        split at h
        · exact Option.noConfusion h
        · rename_i heqr
          cases h
          exact ih _ _ heqr (fun l hl => hp l (List.mem_cons_of_mem _ hl))
      · rename_i nd heqn
        split at h
        · exact Option.noConfusion h
        · rename_i heqr
          cases h
          intro n hn
          rcases List.mem_cons.mp hn with h1 | h2
          · subst h1
            exact parseNodeLine_num line n heqn (hp line (List.mem_cons_self _ _))
          · exact ih _ _ heqr (fun l hl => hp l (List.mem_cons_of_mem _ hl)) n h2

/-- `graph[node] = set()` preserves any per-node property of the dictionary
(on keys and targets) when the inserted node has it. -/
theorem dictSetEmpty_prop (P : IncludeGraphNode → Prop) :
    ∀ (g : PGraph) (n : IncludeGraphNode),
      (∀ pr ∈ g, P pr.1 ∧ ∀ t ∈ pr.2, P t) → P n →
      ∀ pr ∈ dictSetEmpty g n, P pr.1 ∧ ∀ t ∈ pr.2, P t := by
  intro g
  induction g with
  | nil =>
    intro n _ hn pr hpr
    unfold dictSetEmpty at hpr
    rw [List.mem_singleton] at hpr
    subst hpr
    exact ⟨hn, fun t ht => absurd ht (List.not_mem_nil t)⟩
  | cons kv rest ih =>
    obtain ⟨k, v⟩ := kv
    intro n hg hn pr hpr
    unfold dictSetEmpty at hpr
    split at hpr
    · rcases List.mem_cons.mp hpr with h1 | h2
      · subst h1
        exact ⟨(hg (k, v) (List.mem_cons_self _ _)).1,
          fun t ht => absurd ht (List.not_mem_nil t)⟩
      · exact hg pr (List.mem_cons_of_mem _ h2)
    · rcases List.mem_cons.mp hpr with h1 | h2
      · subst h1
        exact hg (k, v) (List.mem_cons_self _ _)
      · exact ih n (fun q hq => hg q (List.mem_cons_of_mem _ hq)) hn pr h2

/-- The node-section fold of `parse_tgf_graph` preserves the per-node
property. -/
theorem foldSetEmpty_prop (P : IncludeGraphNode → Prop) :
    ∀ (ns : List IncludeGraphNode) (g : PGraph),
      (∀ pr ∈ g, P pr.1 ∧ ∀ t ∈ pr.2, P t) → (∀ n ∈ ns, P n) →
      ∀ pr ∈ ns.foldl (fun g n => dictSetEmpty g n) g, P pr.1 ∧ ∀ t ∈ pr.2, P t := by
  intro ns
  induction ns with
  | nil => intro g hg _ pr hpr; exact hg pr hpr
  | cons n ns ih =>
    intro g hg hns pr hpr
    rw [List.foldl_cons] at hpr
    exact ih (dictSetEmpty g n)
      (dictSetEmpty_prop P g n hg (hns n (List.mem_cons_self _ _)))
      (fun m hm => hns m (List.mem_cons_of_mem _ hm)) pr hpr

/-- `graph[source].add(target)` preserves the per-node property when the
added target has it. -/
theorem dictAddTarget_prop (P : IncludeGraphNode → Prop) :
    ∀ (g : PGraph) (s t : IncludeGraphNode),
      (∀ pr ∈ g, P pr.1 ∧ ∀ u ∈ pr.2, P u) → P t →
      ∀ pr ∈ dictAddTarget g s t, P pr.1 ∧ ∀ u ∈ pr.2, P u := by
  intro g
  induction g with
  | nil => intro s t _ _ pr hpr; cases hpr
  | cons kv rest ih =>
    obtain ⟨k, v⟩ := kv
    intro s t hg ht pr hpr
    unfold dictAddTarget at hpr
    split at hpr
    · rcases List.mem_cons.mp hpr with h1 | h2
      · subst h1
        refine ⟨(hg (k, v) (List.mem_cons_self _ _)).1, fun u hu => ?_⟩
        split at hu
        · exact (hg (k, v) (List.mem_cons_self _ _)).2 u hu
        · rcases List.mem_append.mp hu with h3 | h4
          · exact (hg (k, v) (List.mem_cons_self _ _)).2 u h3
          · rw [List.mem_singleton.mp h4]
            exact ht
      · exact hg pr (List.mem_cons_of_mem _ h2)
    · rcases List.mem_cons.mp hpr with h1 | h2
      · subst h1
        exact hg (k, v) (List.mem_cons_self _ _)
      · exact ih s t (fun q hq => hg q (List.mem_cons_of_mem _ hq)) ht pr h2

/-- The edge-section fold of `parse_tgf_graph` preserves the per-node
property when every edge target has it. -/
theorem foldAddTarget_prop (P : IncludeGraphNode → Prop) :
    ∀ (E : List (IncludeGraphNode × IncludeGraphNode)) (g : PGraph),
      (∀ pr ∈ g, P pr.1 ∧ ∀ u ∈ pr.2, P u) → (∀ e ∈ E, P e.2) →
      ∀ pr ∈ E.foldl (fun g pr => dictAddTarget g pr.1 pr.2) g,
        P pr.1 ∧ ∀ u ∈ pr.2, P u := by
  intro E
  induction E with
  | nil => intro g hg _ pr hpr; exact hg pr hpr
  | cons e E ih =>
    intro g hg hE pr hpr
    rw [List.foldl_cons] at hpr
    exact ih (dictAddTarget g e.1 e.2)
      (dictAddTarget_prop P g e.1 e.2 hg (hE e (List.mem_cons_self _ _)))
      (fun f hf => hE f (List.mem_cons_of_mem _ hf)) pr hpr

/-- `nodes[filename] = node` keeps every dictionary value satisfying a
property when the inserted value does. -/
theorem assocSet_values_prop (P : IncludeGraphNode → Prop) :
    ∀ (m : List (String × IncludeGraphNode)) (k : String) (v : IncludeGraphNode),
      (∀ pr ∈ m, P pr.2) → P v → ∀ pr ∈ assocSet m k v, P pr.2 := by
  intro m
  induction m with
  | nil =>
    intro k v _ hv pr hpr
    unfold assocSet at hpr
    rw [List.mem_singleton] at hpr
    subst hpr
    exact hv
  | cons kv rest ih =>
    obtain ⟨k0, v0⟩ := kv
    intro k v hm hv pr hpr
    unfold assocSet at hpr
    split at hpr
    · rcases List.mem_cons.mp hpr with h1 | h2
      · subst h1; exact hv
      · exact hm pr (List.mem_cons_of_mem _ h2)
    · rcases List.mem_cons.mp hpr with h1 | h2
      · subst h1
        exact hm (k0, v0) (List.mem_cons_self _ _)
      · exact ih k v (fun q hq => hm q (List.mem_cons_of_mem _ hq)) hv pr h2

/-- The name-dictionary fold of `parse_tgf_graph` keeps every value
satisfying a property the inserted nodes satisfy. -/
theorem foldAssocSet_values_prop (P : IncludeGraphNode → Prop) :
    ∀ (ns : List IncludeGraphNode) (m : List (String × IncludeGraphNode)),
      (∀ pr ∈ m, P pr.2) → (∀ n ∈ ns, P n) →
      ∀ pr ∈ ns.foldl (fun m n => assocSet m n.filename n) m, P pr.2 := by
  intro ns
  induction ns with
  | nil => intro m hm _ pr hpr; exact hm pr hpr
  | cons n ns ih =>
    intro m hm hns pr hpr
    rw [List.foldl_cons] at hpr
    exact ih (assocSet m n.filename n)
      (assocSet_values_prop P m n.filename n hm (hns n (List.mem_cons_self _ _)))
      (fun q hq => hns q (List.mem_cons_of_mem _ hq)) pr hpr

/-- A successful name-dictionary lookup returns one of the values. -/
theorem assocGet_prop (P : IncludeGraphNode → Prop) :
    ∀ (m : List (String × IncludeGraphNode)) (k : String) (v : IncludeGraphNode),
      (∀ pr ∈ m, P pr.2) → assocGet m k = some v → P v := by
  intro m
  induction m with
  | nil => intro k v _ h; exact Option.noConfusion h
  | cons kv rest ih =>
    obtain ⟨k0, v0⟩ := kv
    intro k v hm h
    unfold assocGet at h
    split at h
    · cases h
      exact hm (k0, v0) (List.mem_cons_self _ _)
    · exact ih k v (fun q hq => hm q (List.mem_cons_of_mem _ hq)) h

/-- Both endpoints of a parsed edge line are values of the name
dictionary. -/
theorem parseEdgeLine_prop (P : IncludeGraphNode → Prop)
    (nodes : List (String × IncludeGraphNode)) (line : String)
    (e : IncludeGraphNode × IncludeGraphNode)
    (hm : ∀ pr ∈ nodes, P pr.2) (h : parseEdgeLine nodes line = some e) :
    P e.1 ∧ P e.2 := by
  unfold parseEdgeLine at h
  split at h
  · exact Option.noConfusion h
  · split at h
    · rename_i heq1 heq2
      cases h
      exact ⟨assocGet_prop P nodes _ _ hm heq1, assocGet_prop P nodes _ _ hm heq2⟩
    · exact Option.noConfusion h
  · exact Option.noConfusion h

/-- Every edge produced by the edge-section parser has endpoints among the
name dictionary's values. -/
theorem parse_tgf_edge_list_prop (P : IncludeGraphNode → Prop)
    (nodes : List (String × IncludeGraphNode))
    (hm : ∀ pr ∈ nodes, P pr.2) :
    ∀ (lines : List String) (acc : List (IncludeGraphNode × IncludeGraphNode)),
      (∀ e ∈ acc, P e.1 ∧ P e.2) →
      ∀ e ∈ lines.foldl
        (fun acc line =>
          match parseEdgeLine nodes line with
          | some e => acc ++ [e]
          | none => acc) acc, P e.1 ∧ P e.2 := by
  intro lines
  induction lines with
  | nil => intro acc hacc e he; exact hacc e he
  | cons line rest ih =>
    intro acc hacc e he
    rw [List.foldl_cons] at he
    cases hpl : parseEdgeLine nodes line with
    | none =>
      rw [hpl] at he
      exact ih acc hacc e he
    | some e0 =>
      rw [hpl] at he
      refine ih (acc ++ [e0]) (fun f hf => ?_) e he
      rcases List.mem_append.mp hf with h1 | h2
      · exact hacc f h1
      · rw [List.mem_singleton.mp h2]
        exact parseEdgeLine_prop P nodes line e0 hm hpl

/-- C10: for every interchange-format input — any input whose node lines
never carry a `num_in_edges` attribute, which the wire grammar of the
format does not include — every node of the decoded graph (keys and
targets alike) has an in-edge count of exactly 0, the dataclass default:
the edge section never updates in-edge counts. -/
theorem parse_tgf_graph_in_edges_zero :
    ∀ (lines : List String) (g : PGraph),
      parse_tgf_graph lines = some g →
      (∀ line ∈ lines, ∀ pr ∈ lineAttrPairs line, pr.1 ≠ "num_in_edges") →
      ∀ pr ∈ g, pr.1.num_in_edges = 0 ∧ ∀ t ∈ pr.2, t.num_in_edges = 0 := by
  intro lines g h hp
  unfold parse_tgf_graph at h
  split at h
  · exact Option.noConfusion h
  · rename_i ns0 rem0 heqn
    cases h
    have hnodes := parse_node_list_num lines ns0 rem0 heqn hp
    have hvals := foldAssocSet_values_prop (fun nd => nd.num_in_edges = 0) ns0 []
      (fun pr hpr => absurd hpr (List.not_mem_nil pr)) hnodes
    have hedges : ∀ e ∈ parse_tgf_edge_list rem0
        (ns0.foldl (fun m n => assocSet m n.filename n) []),
        e.1.num_in_edges = 0 ∧ e.2.num_in_edges = 0 := by
      unfold parse_tgf_edge_list
      exact parse_tgf_edge_list_prop (fun nd => nd.num_in_edges = 0) _ hvals rem0 []
        (fun e he => absurd he (List.not_mem_nil e))
    exact foldAddTarget_prop (fun nd => nd.num_in_edges = 0) _ _
      (foldSetEmpty_prop _ ns0 [] (fun pr hpr => absurd hpr (List.not_mem_nil pr)) hnodes)
      (fun e he => (hedges e he).2)

/-- Witness for C10 at the scenario interchange text. -/
theorem parse_tgf_graph_in_edges_zero_witness :
    (∀ line ∈ example4Lines, ∀ pr ∈ lineAttrPairs line, pr.1 ≠ "num_in_edges")
      ∧ (parse_tgf_graph example4Lines).elim False
          (fun g => ∀ pr ∈ g, pr.1.num_in_edges = 0 ∧ ∀ t ∈ pr.2, t.num_in_edges = 0) := by
  refine ⟨by decide, ?_⟩
  cases hg : parse_tgf_graph example4Lines with
  | none => exact absurd hg (by decide)
  | some g =>
    exact parse_tgf_graph_in_edges_zero example4Lines g hg (by decide)

/-- Elements already marked visited stay visited through the child loop of
either traversal (`f` is the loop body — `enqueue` or `push`; `Hf` is its
two-case behaviour). -/
theorem workFold_snd_mem
    (f : List String × List String → String → List String × List String)
    (ins : List String → String → List String)
    (Hf : ∀ (q v : List String) (c : String),
      (c ∈ v → f (q, v) c = (q, v)) ∧ (c ∉ v → f (q, v) c = (ins q c, c :: v))) :
    ∀ (cs q v : List String) (x : String), x ∈ v → x ∈ (cs.foldl f (q, v)).2 := by
  intro cs
  induction cs with
  | nil => intro q v x hx; exact hx
  | cons c cs ih =>
    intro q v x hx
    rw [List.foldl_cons]
    by_cases hc : c ∈ v
    · rw [(Hf q v c).1 hc]
      exact ih q v x hx
    · rw [(Hf q v c).2 hc]
      exact ih _ _ x (List.mem_cons_of_mem _ hx)

/-- The child loop only marks children visited. -/
theorem workFold_snd_sub
    (f : List String × List String → String → List String × List String)
    (ins : List String → String → List String)
    (Hf : ∀ (q v : List String) (c : String),
      (c ∈ v → f (q, v) c = (q, v)) ∧ (c ∉ v → f (q, v) c = (ins q c, c :: v))) :
    ∀ (cs q v : List String) (x : String),
      x ∈ (cs.foldl f (q, v)).2 → x ∈ v ∨ x ∈ cs := by
  intro cs
  induction cs with
  | nil => intro q v x hx; exact Or.inl hx
  | cons c cs ih =>
    intro q v x hx
    rw [List.foldl_cons] at hx
    by_cases hc : c ∈ v
    · rw [(Hf q v c).1 hc] at hx
      rcases ih q v x hx with h1 | h2
      · exact Or.inl h1
      · exact Or.inr (List.mem_cons_of_mem _ h2)
    · rw [(Hf q v c).2 hc] at hx
      rcases ih _ _ x hx with h1 | h2
      · rcases List.mem_cons.mp h1 with h3 | h4
        · exact Or.inr (h3 ▸ List.mem_cons_self c cs)
        · exact Or.inl h4
      · exact Or.inr (List.mem_cons_of_mem _ h2)

/-- Everything in the worklist after the child loop was already there or is
a fresh (unvisited) child. -/
theorem workFold_fst_sub
    (f : List String × List String → String → List String × List String)
    (ins : List String → String → List String)
    (Hf : ∀ (q v : List String) (c : String),
      (c ∈ v → f (q, v) c = (q, v)) ∧ (c ∉ v → f (q, v) c = (ins q c, c :: v)))
    (Hmem : ∀ (l : List String) (c x : String), x ∈ ins l c ↔ x ∈ l ∨ x = c) :
    ∀ (cs q v : List String) (x : String),
      x ∈ (cs.foldl f (q, v)).1 → x ∈ q ∨ (x ∈ cs ∧ x ∉ v) := by
  intro cs
  induction cs with
  | nil => intro q v x hx; exact Or.inl hx
  | cons c cs ih =>
    intro q v x hx
    rw [List.foldl_cons] at hx
    by_cases hc : c ∈ v
    · rw [(Hf q v c).1 hc] at hx
      rcases ih q v x hx with h1 | h2
      · exact Or.inl h1
      · exact Or.inr ⟨List.mem_cons_of_mem _ h2.1, h2.2⟩
    · rw [(Hf q v c).2 hc] at hx
      rcases ih _ _ x hx with h1 | h2
      · rcases (Hmem q c x).mp h1 with h3 | h4
        · exact Or.inl h3
        · subst h4
          exact Or.inr ⟨List.mem_cons_self x cs, hc⟩
      · refine Or.inr ⟨List.mem_cons_of_mem _ h2.1, fun hv => h2.2 (List.mem_cons_of_mem _ hv)⟩

/-- The child loop keeps the worklist inside the visited set. -/
theorem workFold_fst_in_snd
    (f : List String × List String → String → List String × List String)
    (ins : List String → String → List String)
    (Hf : ∀ (q v : List String) (c : String),
      (c ∈ v → f (q, v) c = (q, v)) ∧ (c ∉ v → f (q, v) c = (ins q c, c :: v)))
    (Hmem : ∀ (l : List String) (c x : String), x ∈ ins l c ↔ x ∈ l ∨ x = c) :
    ∀ (cs q v : List String), (∀ x ∈ q, x ∈ v) →
      ∀ x ∈ (cs.foldl f (q, v)).1, x ∈ (cs.foldl f (q, v)).2 := by
  intro cs
  induction cs with
  | nil => intro q v hqv x hx; exact hqv x hx
  | cons c cs ih =>
    intro q v hqv x hx
    rw [List.foldl_cons] at hx ⊢
    by_cases hc : c ∈ v
    · rw [(Hf q v c).1 hc] at hx ⊢
      exact ih q v hqv x hx
    · rw [(Hf q v c).2 hc] at hx ⊢
      refine ih _ _ (fun y hy => ?_) x hx
      rcases (Hmem q c y).mp hy with h1 | h2
      · exact List.mem_cons_of_mem _ (hqv y h1)
      · exact h2 ▸ List.mem_cons_self c v

/-- The child loop keeps the worklist duplicate-free. -/
theorem workFold_fst_nodup
    (f : List String × List String → String → List String × List String)
    (ins : List String → String → List String)
    (Hf : ∀ (q v : List String) (c : String),
      (c ∈ v → f (q, v) c = (q, v)) ∧ (c ∉ v → f (q, v) c = (ins q c, c :: v)))
    (Hmem : ∀ (l : List String) (c x : String), x ∈ ins l c ↔ x ∈ l ∨ x = c)
    (Hnodup : ∀ (l : List String) (c : String), l.Nodup → c ∉ l → (ins l c).Nodup) :
    ∀ (cs q v : List String), (∀ x ∈ q, x ∈ v) → q.Nodup →
      (cs.foldl f (q, v)).1.Nodup := by
  intro cs
  induction cs with
  | nil => intro q v _ hnd; exact hnd
  | cons c cs ih =>
    intro q v hqv hnd
    rw [List.foldl_cons]
    by_cases hc : c ∈ v
    · rw [(Hf q v c).1 hc]
      exact ih q v hqv hnd
    · rw [(Hf q v c).2 hc]
      refine ih _ _ (fun y hy => ?_) (Hnodup q c hnd (fun hq => hc (hqv c hq)))
      rcases (Hmem q c y).mp hy with h1 | h2
      · exact List.mem_cons_of_mem _ (hqv y h1)
      · exact h2 ▸ List.mem_cons_self c v

/-- The child loop preserves the termination measure: each fresh child adds
one worklist entry and removes one element from the unvisited part of the
universe. -/
theorem workFold_measure
    (f : List String × List String → String → List String × List String)
    (ins : List String → String → List String)
    (Hf : ∀ (q v : List String) (c : String),
      (c ∈ v → f (q, v) c = (q, v)) ∧ (c ∉ v → f (q, v) c = (ins q c, c :: v)))
    (Hlen : ∀ (l : List String) (c : String), (ins l c).length = l.length + 1)
    (U : List String) :
    ∀ (cs q v : List String), (∀ c ∈ cs, c ∈ U) →
      (cs.foldl f (q, v)).1.length
          + (U.toFinset \ (cs.foldl f (q, v)).2.toFinset).card
        = q.length + (U.toFinset \ v.toFinset).card := by
  intro cs
  induction cs with
  | nil => intro q v _; rfl
  | cons c cs ih =>
    intro q v hcs
    rw [List.foldl_cons]
    by_cases hc : c ∈ v
    · rw [(Hf q v c).1 hc]
      exact ih q v (fun d hd => hcs d (List.mem_cons_of_mem _ hd))
    · rw [(Hf q v c).2 hc]
      rw [ih _ _ (fun d hd => hcs d (List.mem_cons_of_mem _ hd))]
      have hcU : c ∈ U.toFinset \ v.toFinset :=
        Finset.mem_sdiff.mpr
          ⟨List.mem_toFinset.mpr (hcs c (List.mem_cons_self c cs)),
            fun hm => hc (List.mem_toFinset.mp hm)⟩
      have hcard : (U.toFinset \ (c :: v).toFinset).card
          = (U.toFinset \ v.toFinset).card - 1 := by
        rw [List.toFinset_cons, Finset.sdiff_insert, Finset.card_erase_of_mem hcU]
      have hpos : 1 ≤ (U.toFinset \ v.toFinset).card :=
        Finset.card_pos.mpr ⟨c, hcU⟩
      rw [Hlen, hcard]
      omega

/-- The two-case behaviour of the breadth-first child-loop body. -/
theorem enqueue_cases : ∀ (q v : List String) (c : String),
    (c ∈ v → enqueue (q, v) c = (q, v))
      ∧ (c ∉ v → enqueue (q, v) c = (q ++ [c], c :: v)) := by
  intro q v c
  constructor <;> intro h <;> simp [enqueue, h]

/-- The two-case behaviour of the depth-first child-loop body. -/
theorem push_cases : ∀ (q v : List String) (c : String),
    (c ∈ v → push (q, v) c = (q, v))
      ∧ (c ∉ v → push (q, v) c = (c :: q, c :: v)) := by
  intro q v c
  constructor <;> intro h <;> simp [push, h]

/-- Membership after appending one element at the end. -/
theorem appendOne_mem : ∀ (l : List String) (c x : String),
    x ∈ l ++ [c] ↔ x ∈ l ∨ x = c := by
  intro l c x
  simp

/-- Appending a fresh element keeps a list duplicate-free. -/
theorem appendOne_nodup : ∀ (l : List String) (c : String),
    l.Nodup → c ∉ l → (l ++ [c]).Nodup := by
  intro l c h1 h2
  rw [List.nodup_append]
  exact ⟨h1, List.nodup_singleton c,
    fun a ha hac => h2 ((List.mem_singleton.mp hac) ▸ ha)⟩

/-- Length after appending one element. -/
theorem appendOne_len : ∀ (l : List String) (c : String),
    (l ++ [c]).length = l.length + 1 := by
  intro l c
  simp

/-- Membership after prepending one element. -/
theorem consOne_mem : ∀ (l : List String) (c x : String),
    x ∈ c :: l ↔ x ∈ l ∨ x = c := by
  intro l c x
  rw [List.mem_cons]
  tauto

/-- Prepending a fresh element keeps a list duplicate-free. -/
theorem consOne_nodup : ∀ (l : List String) (c : String),
    l.Nodup → c ∉ l → (c :: l).Nodup := by
  intro l c h1 h2
  exact List.nodup_cons.mpr ⟨h2, h1⟩

/-- Length after prepending one element. -/
theorem consOne_len : ∀ (l : List String) (c : String),
    (c :: l).length = l.length + 1 := by
  intro l c
  rfl

/-- A breadth-first run whose state already satisfies the mark-on-enqueue
invariants drains its queue within the measure's worth of fuel and never
visits a node twice. -/
theorem bfs_run {σ : Type} (vis : σ → String → σ × List String) (U : List String)
    (hU : ∀ (s : σ) (n c : String), c ∈ (vis s n).2 → c ∈ U) :
    ∀ (fuel : Nat) (s : σ) (queue visited acc : List String),
      (∀ x ∈ queue, x ∈ visited) →
      queue.Nodup →
      acc.Nodup →
      (∀ a ∈ acc, a ∈ visited) →
      (∀ x ∈ queue, x ∉ acc) →
      queue.length + (U.toFinset \ visited.toFinset).card ≤ fuel →
      ∃ r, bfs (fun s n => some (vis s n)) fuel s queue visited acc
          = some r ∧ r.2.2 = [] ∧ r.2.1.Nodup := by
  intro fuel
  induction fuel with
  | zero =>
    intro s queue visited acc hqv hqnd hand hacc hqa hm
    have hq : queue = [] := List.eq_nil_of_length_eq_zero (by omega)
    subst hq
    exact ⟨(s, acc.reverse, []), rfl, rfl, by simpa using hand⟩
  | succ n ih =>
    intro s queue visited acc hqv hqnd hand hacc hqa hm
    cases queue with
    | nil => exact ⟨(s, acc.reverse, []), rfl, rfl, by simpa using hand⟩
    | cons c rest =>
      have hcv : c ∈ visited := hqv c (List.mem_cons_self c rest)
      have hstep : bfs (fun s n => some (vis s n)) (n + 1) s (c :: rest) visited acc
          = bfs (fun s n => some (vis s n)) n (vis s c).1
              ((vis s c).2.foldl enqueue (rest, visited)).1
              ((vis s c).2.foldl enqueue (rest, visited)).2 (c :: acc) := by
        conv_lhs => unfold bfs
        rw [if_pos hcv]
      have hcr : c ∉ rest := (List.nodup_cons.mp hqnd).1
      have hrnd : rest.Nodup := (List.nodup_cons.mp hqnd).2
      have hrv : ∀ x ∈ rest, x ∈ visited :=
        fun x hx => hqv x (List.mem_cons_of_mem _ hx)
      have hcsU : ∀ d ∈ (vis s c).2, d ∈ U := fun d hd => hU s c d hd
      obtain ⟨r, hr, h1, h2⟩ := ih (vis s c).1
        ((vis s c).2.foldl enqueue (rest, visited)).1
        ((vis s c).2.foldl enqueue (rest, visited)).2 (c :: acc)
        (workFold_fst_in_snd enqueue _ enqueue_cases appendOne_mem _ rest visited hrv)
        (workFold_fst_nodup enqueue _ enqueue_cases appendOne_mem appendOne_nodup
          _ rest visited hrv hrnd)
        (List.nodup_cons.mpr ⟨hqa c (List.mem_cons_self c rest), hand⟩)
        (by
          intro a ha
          rcases List.mem_cons.mp ha with h3 | h4
          · exact workFold_snd_mem enqueue _ enqueue_cases _ rest visited a (h3 ▸ hcv)
          · exact workFold_snd_mem enqueue _ enqueue_cases _ rest visited a (hacc a h4))
        (by
          intro x hx hxc
          rcases workFold_fst_sub enqueue _ enqueue_cases appendOne_mem
              _ rest visited x hx with h3 | h4
          · rcases List.mem_cons.mp hxc with h5 | h6
            · exact hcr (h5 ▸ h3)
            · exact hqa x (List.mem_cons_of_mem _ h3) h6
          · rcases List.mem_cons.mp hxc with h5 | h6
            · exact h4.2 (h5 ▸ hcv)
            · exact h4.2 (hacc x h6))
        (by
          rw [workFold_measure enqueue _ enqueue_cases appendOne_len U
            _ rest visited hcsU]
          have : (c :: rest).length = rest.length + 1 := rfl
          omega)
      exact ⟨r, by rw [hstep]; exact hr, h1, h2⟩

/-- The depth-first analogue of `bfs_run`: same invariants, same measure,
with the stack in place of the queue. -/
theorem dfs_run {σ : Type} (vis : σ → String → σ × List String) (U : List String)
    (hU : ∀ (s : σ) (n c : String), c ∈ (vis s n).2 → c ∈ U) :
    ∀ (fuel : Nat) (s : σ) (stack visited acc : List String),
      (∀ x ∈ stack, x ∈ visited) →
      stack.Nodup →
      acc.Nodup →
      (∀ a ∈ acc, a ∈ visited) →
      (∀ x ∈ stack, x ∉ acc) →
      stack.length + (U.toFinset \ visited.toFinset).card ≤ fuel →
      ∃ r, dfs (fun s n => some (vis s n)) fuel s stack visited acc
          = some r ∧ r.2.2 = [] ∧ r.2.1.Nodup := by
  intro fuel
  induction fuel with
  | zero =>
    intro s stack visited acc hqv hqnd hand hacc hqa hm
    have hq : stack = [] := List.eq_nil_of_length_eq_zero (by omega)
    subst hq
    exact ⟨(s, acc.reverse, []), rfl, rfl, by simpa using hand⟩
  | succ n ih =>
    intro s stack visited acc hqv hqnd hand hacc hqa hm
    cases stack with
    | nil => exact ⟨(s, acc.reverse, []), rfl, rfl, by simpa using hand⟩
    | cons c rest =>
      have hcv : c ∈ visited := hqv c (List.mem_cons_self c rest)
      have hstep : dfs (fun s n => some (vis s n)) (n + 1) s (c :: rest) visited acc
          = dfs (fun s n => some (vis s n)) n (vis s c).1
              ((vis s c).2.foldl push (rest, visited)).1
              ((vis s c).2.foldl push (rest, visited)).2 (c :: acc) := by
        conv_lhs => unfold dfs
        rw [if_pos hcv]
      have hcr : c ∉ rest := (List.nodup_cons.mp hqnd).1
      have hrnd : rest.Nodup := (List.nodup_cons.mp hqnd).2
      have hrv : ∀ x ∈ rest, x ∈ visited :=
        fun x hx => hqv x (List.mem_cons_of_mem _ hx)
      have hcsU : ∀ d ∈ (vis s c).2, d ∈ U := fun d hd => hU s c d hd
      obtain ⟨r, hr, h1, h2⟩ := ih (vis s c).1
        ((vis s c).2.foldl push (rest, visited)).1
        ((vis s c).2.foldl push (rest, visited)).2 (c :: acc)
        (workFold_fst_in_snd push _ push_cases consOne_mem _ rest visited hrv)
        (workFold_fst_nodup push _ push_cases consOne_mem consOne_nodup
          _ rest visited hrv hrnd)
        (List.nodup_cons.mpr ⟨hqa c (List.mem_cons_self c rest), hand⟩)
        (by
          intro a ha
          rcases List.mem_cons.mp ha with h3 | h4
          · exact workFold_snd_mem push _ push_cases _ rest visited a (h3 ▸ hcv)
          · exact workFold_snd_mem push _ push_cases _ rest visited a (hacc a h4))
        (by
          intro x hx hxc
          rcases workFold_fst_sub push _ push_cases consOne_mem
              _ rest visited x hx with h3 | h4
          · rcases List.mem_cons.mp hxc with h5 | h6
            · exact hcr (h5 ▸ h3)
            · exact hqa x (List.mem_cons_of_mem _ h3) h6
          · rcases List.mem_cons.mp hxc with h5 | h6
            · exact h4.2 (h5 ▸ hcv)
            · exact h4.2 (hacc x h6))
        (by
          rw [workFold_measure push _ push_cases consOne_len U
            _ rest visited hcsU]
          have : (c :: rest).length = rest.length + 1 := rfl
          omega)
      exact ⟨r, by rw [hstep]; exact hr, h1, h2⟩

/-- C6: on every finite graph — modelled by a finite universe `U` from
which every visitor-returned child set is drawn, as holds for any
visitor returning subsets of a finite graph's target sets — both `bfs`
and `dfs` terminate from every start node with every (stateful)
visitor: with fuel `|U| + 2` the worklist is fully drained (the
returned residual worklist is empty), and the visit list is
duplicate-free, i.e. the visitor is called at most once per node. -/
theorem traversals_terminate_visit_once {σ τ : Type}
    (visB : σ → String → σ × List String) (visD : τ → String → τ × List String)
    (U : List String) (sB : σ) (sD : τ) (source : String)
    (hB : ∀ (s : σ) (n c : String), c ∈ (visB s n).2 → c ∈ U)
    (hD : ∀ (s : τ) (n c : String), c ∈ (visD s n).2 → c ∈ U) :
    ((bfs (fun s n => some (visB s n)) (U.toFinset.card + 2) sB [source] [] []).elim
        False (fun r => r.2.2 = [] ∧ r.2.1.Nodup))
      ∧ ((dfs (fun s n => some (visD s n)) (U.toFinset.card + 2) sD [source] [] []).elim
        False (fun r => r.2.2 = [] ∧ r.2.1.Nodup)) := by
  constructor
  · have hstep0 : bfs (fun s n => some (visB s n)) (U.toFinset.card + 1 + 1) sB
        [source] [] []
        = bfs (fun s n => some (visB s n)) (U.toFinset.card + 1) (visB sB source).1
            ((visB sB source).2.foldl enqueue ([], [source])).1
            ((visB sB source).2.foldl enqueue ([], [source])).2 [source] := by
      conv_lhs => unfold bfs
      rw [if_neg (List.not_mem_nil source)]
    obtain ⟨r, hr, h1, h2⟩ := bfs_run visB U hB (U.toFinset.card + 1)
      (visB sB source).1
      ((visB sB source).2.foldl enqueue ([], [source])).1
      ((visB sB source).2.foldl enqueue ([], [source])).2 [source]
      (workFold_fst_in_snd enqueue _ enqueue_cases appendOne_mem _ [] [source]
        (fun x hx => absurd hx (List.not_mem_nil x)))
      (workFold_fst_nodup enqueue _ enqueue_cases appendOne_mem appendOne_nodup
        _ [] [source] (fun x hx => absurd hx (List.not_mem_nil x)) List.nodup_nil)
      (List.nodup_singleton source)
      (by
        intro a ha
        rw [List.mem_singleton] at ha
        rw [ha]
        exact workFold_snd_mem enqueue _ enqueue_cases _ [] [source] source
          (List.mem_singleton_self source))
      (by
        intro x hx hxa
        rcases workFold_fst_sub enqueue _ enqueue_cases appendOne_mem
            _ [] [source] x hx with h3 | h4
        · exact absurd h3 (List.not_mem_nil x)
        · exact h4.2 hxa)
      (by
        rw [workFold_measure enqueue _ enqueue_cases appendOne_len U
          _ [] [source] (fun d hd => hB sB source d hd)]
        have hle : (U.toFinset \ ([source] : List String).toFinset).card
            ≤ U.toFinset.card := Finset.card_le_card Finset.sdiff_subset
        simp only [List.length_nil]
        omega)
    rw [hstep0, hr]
    exact ⟨h1, h2⟩
  · have hstep0 : dfs (fun s n => some (visD s n)) (U.toFinset.card + 1 + 1) sD
        [source] [] []
        = dfs (fun s n => some (visD s n)) (U.toFinset.card + 1) (visD sD source).1
            ((visD sD source).2.foldl push ([], [source])).1
            ((visD sD source).2.foldl push ([], [source])).2 [source] := by
      conv_lhs => unfold dfs
      rw [if_neg (List.not_mem_nil source)]
    obtain ⟨r, hr, h1, h2⟩ := dfs_run visD U hD (U.toFinset.card + 1)
      (visD sD source).1
      ((visD sD source).2.foldl push ([], [source])).1
      ((visD sD source).2.foldl push ([], [source])).2 [source]
      (workFold_fst_in_snd push _ push_cases consOne_mem _ [] [source]
        (fun x hx => absurd hx (List.not_mem_nil x)))
      (workFold_fst_nodup push _ push_cases consOne_mem consOne_nodup
        _ [] [source] (fun x hx => absurd hx (List.not_mem_nil x)) List.nodup_nil)
      (List.nodup_singleton source)
      (by
        intro a ha
        rw [List.mem_singleton] at ha
        rw [ha]
        exact workFold_snd_mem push _ push_cases _ [] [source] source
          (List.mem_singleton_self source))
      (by
        intro x hx hxa
        rcases workFold_fst_sub push _ push_cases consOne_mem
            _ [] [source] x hx with h3 | h4
        · exact absurd h3 (List.not_mem_nil x)
        · exact h4.2 hxa)
      (by
        rw [workFold_measure push _ push_cases consOne_len U
          _ [] [source] (fun d hd => hD sD source d hd)]
        have hle : (U.toFinset \ ([source] : List String).toFinset).card
            ≤ U.toFinset.card := Finset.card_le_card Finset.sdiff_subset
        simp only [List.length_nil]
        omega)
    rw [hstep0, hr]
    exact ⟨h1, h2⟩

/-- Witness for C6 on the spec's cycle-safety scenario `foo.h → b.h →
foo.h`, starting at `foo.h`. -/
theorem traversals_terminate_visit_once_witness :
    (∀ (s : Unit) (n c : String), c ∈ (cycleVisitor s n).2 → c ∈ ["foo.h", "b.h"])
      ∧ ((bfs (fun s n => some (cycleVisitor s n))
            ((["foo.h", "b.h"] : List String).toFinset.card + 2) () ["foo.h"] [] []).elim
          False (fun r => r.2.2 = [] ∧ r.2.1.Nodup))
      ∧ ((dfs (fun s n => some (cycleVisitor s n))
            ((["foo.h", "b.h"] : List String).toFinset.card + 2) () ["foo.h"] [] []).elim
          False (fun r => r.2.2 = [] ∧ r.2.1.Nodup)) := by
  have hyp : ∀ (s : Unit) (n c : String),
      c ∈ (cycleVisitor s n).2 → c ∈ ["foo.h", "b.h"] := by
    intro s n c h
    unfold cycleVisitor cycleChildren at h
    split_ifs at h <;> simp_all
  exact ⟨hyp,
    (traversals_terminate_visit_once cycleVisitor cycleVisitor ["foo.h", "b.h"]
      () () "foo.h" hyp hyp).1,
    (traversals_terminate_visit_once cycleVisitor cycleVisitor ["foo.h", "b.h"]
      () () "foo.h" hyp hyp).2⟩

/-- A filename that is not a key has no target list. -/
theorem dictGetTargets_not_key :
    ∀ (g : PGraph) (n : IncludeGraphNode),
      dictHasKey g n = false → dictGetTargets g n = [] := by
  intro g
  induction g with
  | nil => intro n _; rfl
  | cons kv rest ih =>
    obtain ⟨k, v⟩ := kv
    intro n h
    unfold dictHasKey at h
    simp only [List.any_cons, Bool.or_eq_false_iff] at h
    have e : dictGetTargets ((k, v) :: rest) n
        = if k = n then v else dictGetTargets rest n := rfl
    rw [e, if_neg (by simpa using h.1)]
    exact ih n (by unfold dictHasKey; exact h.2)

/-- Lookup ignores a suffix when the key is found in the prefix. -/
theorem dictGetTargets_append_left :
    ∀ (g g2 : PGraph) (s : IncludeGraphNode),
      dictHasKey g s = true → dictGetTargets (g ++ g2) s = dictGetTargets g s := by
  intro g
  induction g with
  | nil => intro g2 s h; exact absurd h (by unfold dictHasKey; simp)
  | cons kv rest ih =>
    obtain ⟨k, v⟩ := kv
    intro g2 s h
    have e1 : dictGetTargets (((k, v) :: rest) ++ g2) s
        = if k = s then v else dictGetTargets (rest ++ g2) s := rfl
    have e2 : dictGetTargets ((k, v) :: rest) s
        = if k = s then v else dictGetTargets rest s := rfl
    rw [e1, e2]
    by_cases hk : k = s
    · rw [if_pos hk, if_pos hk]
    · rw [if_neg hk, if_neg hk]
      refine ih g2 s ?_
      unfold dictHasKey at h
      simp only [List.any_cons, Bool.or_eq_true] at h
      rcases h with h1 | h2
      · exact absurd (by simpa using h1) hk
      · unfold dictHasKey; exact h2

/-- Lookup of a key appearing only in the appended entry. -/
theorem dictGetTargets_append_missing :
    ∀ (g : PGraph) (n : IncludeGraphNode) (v : List IncludeGraphNode),
      dictHasKey g n = false → dictGetTargets (g ++ [(n, v)]) n = v := by
  intro g
  induction g with
  | nil =>
    intro n v _
    have e : dictGetTargets ([] ++ [(n, v)]) n
        = if n = n then v else dictGetTargets [] n := rfl
    rw [e, if_pos rfl]
  | cons kv rest ih =>
    obtain ⟨k, w⟩ := kv
    intro n v h
    unfold dictHasKey at h
    simp only [List.any_cons, Bool.or_eq_false_iff] at h
    have e : dictGetTargets (((k, w) :: rest) ++ [(n, v)]) n
        = if k = n then w else dictGetTargets (rest ++ [(n, v)]) n := rfl
    rw [e, if_neg (by simpa using h.1)]
    exact ih n v (by unfold dictHasKey; exact h.2)

/-- `graph[source].add(target)` rewrites exactly the source's target list. -/
theorem dictAddTarget_getTargets_self :
    ∀ (g : PGraph) (s t : IncludeGraphNode),
      dictHasKey g s = true →
      dictGetTargets (dictAddTarget g s t) s
        = if t ∈ dictGetTargets g s then dictGetTargets g s
          else dictGetTargets g s ++ [t] := by
  intro g
  induction g with
  | nil => intro s t h; exact absurd h (by unfold dictHasKey; simp)
  | cons kv rest ih =>
    obtain ⟨k, v⟩ := kv
    intro s t h
    have ea : dictAddTarget ((k, v) :: rest) s t
        = if k = s then (k, if t ∈ v then v else v ++ [t]) :: rest
          else (k, v) :: dictAddTarget rest s t := rfl
    have e2 : dictGetTargets ((k, v) :: rest) s
        = if k = s then v else dictGetTargets rest s := rfl
    rw [ea, e2]
    by_cases hk : k = s
    · rw [if_pos hk, if_pos hk]
      have e3 : dictGetTargets ((k, if t ∈ v then v else v ++ [t]) :: rest) s
          = if k = s then (if t ∈ v then v else v ++ [t])
            else dictGetTargets rest s := rfl
      rw [e3, if_pos hk]
    · rw [if_neg hk, if_neg hk]
      have e3 : dictGetTargets ((k, v) :: dictAddTarget rest s t) s
          = if k = s then v else dictGetTargets (dictAddTarget rest s t) s := rfl
      rw [e3, if_neg hk]
      refine ih s t ?_
      unfold dictHasKey at h
      simp only [List.any_cons, Bool.or_eq_true] at h
      rcases h with h1 | h2
      · exact absurd (by simpa using h1) hk
      · unfold dictHasKey; exact h2

/-- `graph[source].add(target)` does not change the key set. -/
theorem dictAddTarget_hasKey :
    ∀ (g : PGraph) (s t x : IncludeGraphNode),
      dictHasKey (dictAddTarget g s t) x = dictHasKey g x := by
  intro g
  induction g with
  | nil => intro s t x; rfl
  | cons kv rest ih =>
    obtain ⟨k, v⟩ := kv
    intro s t x
    have ea : dictAddTarget ((k, v) :: rest) s t
        = if k = s then (k, if t ∈ v then v else v ++ [t]) :: rest
          else (k, v) :: dictAddTarget rest s t := rfl
    rw [ea]
    by_cases hk : k = s
    · rw [if_pos hk]
      unfold dictHasKey
      simp
    · rw [if_neg hk]
      unfold dictHasKey
      simp only [List.any_cons]
      rw [show ((dictAddTarget rest s t).any fun pr => decide (pr.1 = x))
          = dictHasKey (dictAddTarget rest s t) x from rfl, ih s t x]
      rfl

/-- Setting a missing key appends a fresh empty entry. -/
theorem dictSetEmpty_missing :
    ∀ (g : PGraph) (n : IncludeGraphNode),
      dictHasKey g n = false → dictSetEmpty g n = g ++ [(n, [])] := by
  intro g
  induction g with
  | nil => intro n _; rfl
  | cons kv rest ih =>
    obtain ⟨k, v⟩ := kv
    intro n h
    unfold dictHasKey at h
    simp only [List.any_cons, Bool.or_eq_false_iff] at h
    have e : dictSetEmpty ((k, v) :: rest) n
        = if k = n then (k, ([] : List IncludeGraphNode)) :: rest
          else (k, v) :: dictSetEmpty rest n := rfl
    rw [e, if_neg (by simpa using h.1), List.cons_append,
      ih n (by unfold dictHasKey; exact h.2)]

/-- After `graph[n] = set()` the node is a key. -/
theorem dictSetEmpty_hasKey_self :
    ∀ (g : PGraph) (n : IncludeGraphNode),
      dictHasKey (dictSetEmpty g n) n = true := by
  intro g
  induction g with
  | nil => intro n; unfold dictSetEmpty dictHasKey; simp
  | cons kv rest ih =>
    obtain ⟨k, v⟩ := kv
    intro n
    have e : dictSetEmpty ((k, v) :: rest) n
        = if k = n then (k, ([] : List IncludeGraphNode)) :: rest
          else (k, v) :: dictSetEmpty rest n := rfl
    rw [e]
    by_cases hk : k = n
    · rw [if_pos hk]
      unfold dictHasKey
      simp [hk]
    · rw [if_neg hk]
      unfold dictHasKey
      simp only [List.any_cons, Bool.or_eq_true]
      exact Or.inr (ih n)

/-- The defaultdict form of the edge insertion: the source's target list
gains the target (idempotently), whether or not the source was a key. -/
theorem dictAddTargetD_getTargets_self (g : PGraph) (s t : IncludeGraphNode) :
    dictGetTargets (dictAddTargetD g s t) s
      = if t ∈ dictGetTargets g s then dictGetTargets g s
        else dictGetTargets g s ++ [t] := by
  unfold dictAddTargetD
  cases hk : dictHasKey g s with
  | true =>
    rw [if_pos rfl]
    exact dictAddTarget_getTargets_self g s t hk
  | false =>
    rw [if_neg (by simp)]
    rw [dictGetTargets_append_missing g s [t] hk, dictGetTargets_not_key g s hk]
    simp

/-- The defaultdict insertion makes the source a key. -/
theorem dictAddTargetD_hasKey_self (g : PGraph) (s t : IncludeGraphNode) :
    dictHasKey (dictAddTargetD g s t) s = true := by
  unfold dictAddTargetD
  cases hk : dictHasKey g s with
  | true =>
    rw [if_pos rfl, dictAddTarget_hasKey]
    exact hk
  | false =>
    rw [if_neg (by simp)]
    unfold dictHasKey
    simp

/-- C7: processing a linemarker carrying flag `1` with a non-empty stack,
the new node is classified with `is_system_header` = (flag `3` present)
and `is_first_level_system_header` = (`is_system_header` and the previous
stack top is not a system header); the edge from the previous stack top
to the new node is added to the graph exactly when full-system mode is
on, or the node is not a system header, or it is first-level; and
whenever the edge is added the target node is also a graph key. -/
theorem builder_flag1_classification (full : Bool) (st : BuildState)
    (lm : Linemarker) (top : IncludeGraphNode) (rest : List IncludeGraphNode)
    (hstack : st.stack = top :: rest) (h1 : (1 : Int) ∈ lm.flags) :
    (classifyNode lm st.stack).is_system_header = decide ((3 : Int) ∈ lm.flags)
      ∧ (classifyNode lm st.stack).is_first_level_system_header
          = ((classifyNode lm st.stack).is_system_header && !top.is_system_header)
      ∧ dictGetTargets (build_step full st (some lm)).graph top
          = (if (full || !(classifyNode lm st.stack).is_system_header
                || (classifyNode lm st.stack).is_first_level_system_header) = true
             then (if classifyNode lm st.stack ∈ dictGetTargets st.graph top
                   then dictGetTargets st.graph top
                   else dictGetTargets st.graph top ++ [classifyNode lm st.stack])
             else dictGetTargets st.graph top)
      ∧ ((full || !(classifyNode lm st.stack).is_system_header
            || (classifyNode lm st.stack).is_first_level_system_header) = true
          → dictHasKey (build_step full st (some lm)).graph
              (classifyNode lm st.stack) = true) := by
  obtain ⟨g0, stk⟩ := st
  have hs2 : stk = top :: rest := hstack
  subst hs2
  have hne : lm.flags.isEmpty = false := by
    cases hf : lm.flags with
    | nil => rw [hf] at h1; cases h1
    | cons a l => rfl
  have hgraph : (build_step full ⟨g0, top :: rest⟩ (some lm)).graph
      = if (full || !(classifyNode lm (top :: rest)).is_system_header
            || (classifyNode lm (top :: rest)).is_first_level_system_header) = true
        then (if dictHasKey (dictAddTargetD g0 top (classifyNode lm (top :: rest)))
                  (classifyNode lm (top :: rest)) = true
              then dictAddTargetD g0 top (classifyNode lm (top :: rest))
              else dictSetEmpty
                  (dictAddTargetD g0 top (classifyNode lm (top :: rest)))
                  (classifyNode lm (top :: rest)))
        else g0 := by
    unfold build_step
    simp only [hne, Bool.false_eq_true, if_false, List.isEmpty_cons, if_pos h1]
    by_cases h2 : (2 : Int) ∈ lm.flags
    · rw [if_pos h2]
    · rw [if_neg h2]
  refine ⟨rfl, rfl, ?_, ?_⟩
  · rw [hgraph]
    by_cases hcond : (full || !(classifyNode lm (top :: rest)).is_system_header
        || (classifyNode lm (top :: rest)).is_first_level_system_header) = true
    · rw [if_pos hcond, if_pos hcond]
      have htop : dictHasKey (dictAddTargetD g0 top (classifyNode lm (top :: rest)))
          top = true := dictAddTargetD_hasKey_self g0 top _
      by_cases hk : dictHasKey (dictAddTargetD g0 top (classifyNode lm (top :: rest)))
          (classifyNode lm (top :: rest)) = true
      · rw [if_pos hk]
        exact dictAddTargetD_getTargets_self g0 top _
      · rw [if_neg hk]
        rw [dictSetEmpty_missing _ _ (by
          cases hkb : dictHasKey (dictAddTargetD g0 top (classifyNode lm (top :: rest)))
              (classifyNode lm (top :: rest))
          · rfl
          · exact absurd hkb hk)]
        rw [dictGetTargets_append_left _ _ _ htop]
        exact dictAddTargetD_getTargets_self g0 top _
    · rw [if_neg hcond, if_neg hcond]
  · intro hcond
    rw [hgraph, if_pos hcond]
    by_cases hk : dictHasKey (dictAddTargetD g0 top (classifyNode lm (top :: rest)))
        (classifyNode lm (top :: rest)) = true
    · rw [if_pos hk]
      exact hk
    · rw [if_neg hk]
      exact dictSetEmpty_hasKey_self _ _

/-- Witness for C7: a system-header linemarker entered (flag `1 3`) under a
non-system top of stack. -/
theorem builder_flag1_classification_witness :
    (({ graph := [({ filename := "m.cpp" }, [])],
        stack := [{ filename := "m.cpp" }] } : BuildState).stack
        = [({ filename := "m.cpp" } : IncludeGraphNode)])
      ∧ (1 : Int) ∈ [(1 : Int), 3]
      ∧ ((classifyNode { linenumber := "1", filename := "vec", flags := [1, 3] }
            [{ filename := "m.cpp" }]).is_system_header = decide ((3 : Int) ∈ [(1 : Int), 3])
          ∧ (classifyNode { linenumber := "1", filename := "vec", flags := [1, 3] }
              [{ filename := "m.cpp" }]).is_first_level_system_header
            = ((classifyNode { linenumber := "1", filename := "vec", flags := [1, 3] }
                [{ filename := "m.cpp" }]).is_system_header
              && !({ filename := "m.cpp" } : IncludeGraphNode).is_system_header)
          ∧ dictGetTargets (build_step false
              { graph := [({ filename := "m.cpp" }, [])],
                stack := [{ filename := "m.cpp" }] }
              (some { linenumber := "1", filename := "vec", flags := [1, 3] })).graph
              { filename := "m.cpp" }
            = (if (false || !(classifyNode { linenumber := "1", filename := "vec", flags := [1, 3] }
                  [{ filename := "m.cpp" }]).is_system_header
                || (classifyNode { linenumber := "1", filename := "vec", flags := [1, 3] }
                  [{ filename := "m.cpp" }]).is_first_level_system_header) = true
               then (if classifyNode { linenumber := "1", filename := "vec", flags := [1, 3] }
                      [{ filename := "m.cpp" }]
                      ∈ dictGetTargets [({ filename := "m.cpp" }, [])] { filename := "m.cpp" }
                     then dictGetTargets [({ filename := "m.cpp" }, [])] { filename := "m.cpp" }
                     else dictGetTargets [({ filename := "m.cpp" }, [])] { filename := "m.cpp" }
                       ++ [classifyNode { linenumber := "1", filename := "vec", flags := [1, 3] }
                            [{ filename := "m.cpp" }]])
               else dictGetTargets [({ filename := "m.cpp" }, [])] { filename := "m.cpp" })
          ∧ ((false || !(classifyNode { linenumber := "1", filename := "vec", flags := [1, 3] }
                [{ filename := "m.cpp" }]).is_system_header
              || (classifyNode { linenumber := "1", filename := "vec", flags := [1, 3] }
                [{ filename := "m.cpp" }]).is_first_level_system_header) = true
            → dictHasKey (build_step false
                { graph := [({ filename := "m.cpp" }, [])],
                  stack := [{ filename := "m.cpp" }] }
                (some { linenumber := "1", filename := "vec", flags := [1, 3] })).graph
                (classifyNode { linenumber := "1", filename := "vec", flags := [1, 3] }
                  [{ filename := "m.cpp" }]) = true)) :=
  ⟨rfl, by decide,
    builder_flag1_classification false
      { graph := [({ filename := "m.cpp" }, [])], stack := [{ filename := "m.cpp" }] }
      { linenumber := "1", filename := "vec", flags := [1, 3] }
      { filename := "m.cpp" } [] rfl (by decide)⟩

/-- Scanning a double-quoted region: every character other than a quote or
backslash is taken literally until the closing quote returns the
tokenizer to word state. -/
theorem shlexAux_indq :
    ∀ (cs rest tok : List Char) (acc : List String),
      (∀ c ∈ cs, c ≠ dqChar ∧ c ≠ bsChar) →
      shlexAux (cs ++ dqChar :: rest) ShlexMode.indq tok acc
        = shlexAux rest ShlexMode.word (tok ++ cs) acc := by
  intro cs
  induction cs with
  | nil =>
    intro rest tok acc _
    rw [List.nil_append, List.append_nil]
    conv_lhs => unfold shlexAux
    rw [if_pos rfl]
  | cons c cs ih =>
    intro rest tok acc h
    have hc := h c (List.mem_cons_self c cs)
    rw [List.cons_append]
    conv_lhs => unfold shlexAux
    rw [if_neg hc.1, if_neg hc.2,
      ih rest (tok ++ [c]) acc (fun d hd => h d (List.mem_cons_of_mem _ hd)),
      List.append_assoc]
    rfl

/-- Tokenizing an encoder-produced line `"x"<TAB>"y"`: exactly the two quoted
payloads, provided neither contains a double quote or a backslash. -/
theorem shlexSplit_two_quoted (f a : String)
    (hf : ∀ c ∈ f.data, c ≠ dqChar ∧ c ≠ bsChar)
    (ha : ∀ c ∈ a.data, c ≠ dqChar ∧ c ≠ bsChar) :
    shlexSplit (quoteTok f ++ "\t" ++ quoteTok a) = some [f, a] := by
  unfold shlexSplit
  have hdata : (quoteTok f ++ "\t" ++ quoteTok a).data
      = dqChar :: (f.data ++ dqChar :: '\t' :: dqChar :: (a.data ++ dqChar :: [])) := by
    show [dqChar] ++ f.data ++ [dqChar] ++ ['\t'] ++ ([dqChar] ++ a.data ++ [dqChar]) = _
    simp
  rw [hdata]
  conv_lhs => unfold shlexAux
  rw [if_neg (by decide : ¬dqChar ∈ pyWhitespace),
    if_neg (by decide : ¬dqChar = sqChar), if_pos rfl,
    shlexAux_indq f.data ('\t' :: dqChar :: (a.data ++ dqChar :: [])) [] [] hf,
    List.nil_append]
  conv_lhs => unfold shlexAux
  rw [if_pos (by decide : '\t' ∈ pyWhitespace)]
  conv_lhs => unfold shlexAux
  rw [if_neg (by decide : ¬dqChar ∈ pyWhitespace),
    if_neg (by decide : ¬dqChar = sqChar), if_pos rfl,
    shlexAux_indq a.data [] [] [String.mk f.data] ha, List.nil_append]
  rfl

/-- `dropWhile` is the identity when the predicate holds nowhere. -/
theorem dropWhile_eq_self_of (p : Char → Bool) (l : List Char)
    (h : ∀ c ∈ l, p c = false) : l.dropWhile p = l := by
  cases l with
  | nil => rfl
  | cons c cs =>
    have hc : p c = false := h c (List.mem_cons_self c cs)
    rw [List.dropWhile_cons, hc]
    simp

/-- `s.strip(chars)` is the identity when no stripped character occurs. -/
theorem pyStripChars_eq_self (chars : List Char) (s : String)
    (h : ∀ c ∈ s.data, ¬c ∈ chars) : pyStripChars chars s = s := by
  unfold pyStripChars
  rw [dropWhile_eq_self_of _ s.data (fun c hc => by simp [h c hc])]
  rw [dropWhile_eq_self_of _ s.data.reverse
    (fun c hc => by simp [h c (List.mem_reverse.mp hc)])]
  rw [List.reverse_reverse]

/-- Quote-stripping is the identity on a quote-free token. -/
theorem stripQuotes_eq_self (s : String)
    (h : ∀ c ∈ s.data, c ≠ sqChar ∧ c ≠ dqChar) : stripQuotes s = s := by
  unfold stripQuotes
  exact pyStripChars_eq_self _ s (fun c hc => by
    simp only [List.mem_cons, List.not_mem_nil, or_false]
    exact fun hor => hor.elim (h c hc).1 (h c hc).2)

/-- `str.strip()` is the identity when both end characters are not
whitespace. -/
theorem pyStrip_eq_self_of_ends (s : String) (c1 c2 : Char) (mid : List Char)
    (hd : s.data = c1 :: (mid ++ [c2]))
    (h1 : ¬c1 ∈ pyWhitespace) (h2 : ¬c2 ∈ pyWhitespace) : pyStrip s = s := by
  unfold pyStrip
  rw [hd]
  have e1 : (c1 :: (mid ++ [c2])).dropWhile (fun c => c ∈ pyWhitespace)
      = c1 :: (mid ++ [c2]) := by
    rw [List.dropWhile_cons, if_neg (by simpa using h1)]
  rw [e1]
  have e2 : (c1 :: (mid ++ [c2])).reverse = c2 :: (mid.reverse ++ [c1]) := by simp
  rw [e2]
  have e3 : (c2 :: (mid.reverse ++ [c1])).dropWhile (fun c => c ∈ pyWhitespace)
      = c2 :: (mid.reverse ++ [c1]) := by
    rw [List.dropWhile_cons, if_neg (by simpa using h2)]
  rw [e3]
  have e4 : (c2 :: (mid.reverse ++ [c1])).reverse = c1 :: (mid ++ [c2]) := by simp
  rw [e4, ← hd]

/-- The character list of an encoder line `"x"<TAB>"y"`. -/
theorem quoted_pair_data (f a : String) :
    (quoteTok f ++ "\t" ++ quoteTok a).data
      = dqChar :: ((f.data ++ dqChar :: '\t' :: dqChar :: a.data) ++ [dqChar]) := by
  show [dqChar] ++ f.data ++ [dqChar] ++ ['\t'] ++ ([dqChar] ++ a.data ++ [dqChar]) = _
  simp

/-- `startswith` is false when the first character differs. -/
theorem pyStartsWith_eq_false (c : Char) (s : String) (c0 : Char) (rest : List Char)
    (hd : s.data = c0 :: rest) (h : c0 ≠ c) : pyStartsWith c s = false := by
  unfold pyStartsWith
  rw [hd]
  simp [h]

/-- Unpacking the `niceNameB` filename condition. -/
theorem niceName_props (f : String) (h : niceNameB f = true) :
    f.data ≠ [] ∧ ∀ c ∈ f.data,
      ¬c ∈ pyWhitespace ∧ c ≠ dqChar ∧ c ≠ sqChar ∧ c ≠ bsChar := by
  unfold niceNameB at h
  simp only [Bool.and_eq_true, List.all_eq_true, Bool.not_eq_true',
    decide_eq_false_iff_not, ne_eq] at h
  obtain ⟨h1, h2⟩ := h
  refine ⟨fun he => ?_, fun c hc => ?_⟩
  · rw [he] at h1
    exact absurd h1 (by decide)
  · have t := h2 c hc
    exact ⟨t.1.1.1, t.1.1.2, t.1.2, t.2⟩

/-- `parseNodeLine` on a line tokenizing to exactly two tokens. -/
theorem parseNodeLine_split2 (line t a : String)
    (h : shlexSplit line = some [t, a]) :
    parseNodeLine line = some (applyAttrs { filename := stripQuotes t }
      (pySplitChar ',' (stripQuotes (pyJoin ", " [a])))) := by
  unfold parseNodeLine
  rw [h]
  rfl

/-- The encoder's attribute payload never contains a double quote or a
backslash. -/
theorem attrString_chars (b1 b2 b3 : Bool) :
    ∀ c ∈ ("is_source_file=" ++ boolStr b1 ++ ", is_system_header=" ++ boolStr b2
      ++ ", is_first_level_system_header=" ++ boolStr b3).data,
      c ≠ dqChar ∧ c ≠ bsChar := by
  cases b1 <;> cases b2 <;> cases b3 <;> decide

/-- Decoding the encoder's node line recovers the node with its attributes
and a zero in-edge counter, for tokenizer-safe filenames. -/
theorem parseNodeLine_encoder (n : IncludeGraphNode)
    (h : niceNameB n.filename = true) :
    parseNodeLine (pyStrip (tgfNodeLine n)) = some (some (decodeNode n)) := by
  obtain ⟨hne, hall⟩ := niceName_props n.filename h
  have hstrip : pyStrip (tgfNodeLine n) = tgfNodeLine n :=
    pyStrip_eq_self_of_ends _ dqChar dqChar
      (n.filename.data ++ dqChar :: '\t' :: dqChar :: (nodeAttrString n).data)
      (quoted_pair_data n.filename (nodeAttrString n))
      (by decide) (by decide)
  rw [hstrip]
  have hattr : ∀ c ∈ (nodeAttrString n).data, c ≠ dqChar ∧ c ≠ bsChar := by
    obtain ⟨f, b1, b2, b3, k⟩ := n
    exact attrString_chars b1 b2 b3
  have hsplit : shlexSplit (tgfNodeLine n) = some [n.filename, nodeAttrString n] :=
    shlexSplit_two_quoted n.filename (nodeAttrString n)
      (fun c hc => ⟨(hall c hc).2.1, (hall c hc).2.2.2⟩) hattr
  rw [parseNodeLine_split2 _ _ _ hsplit,
    stripQuotes_eq_self n.filename
      (fun c hc => ⟨(hall c hc).2.2.1, (hall c hc).2.1⟩)]
  obtain ⟨f, b1, b2, b3, k⟩ := n
  cases b1 <;> cases b2 <;> cases b3 <;> rfl

/-- One node-section step of the parser on a successfully parsed line. -/
theorem parse_tgf_node_list_cons (line : String) (rest : List String)
    (n : IncludeGraphNode)
    (hsw : ¬pyStartsWith '#' (pyStrip line) = true)
    (hp : parseNodeLine (pyStrip line) = some (some n)) :
    parse_tgf_node_list (line :: rest)
      = match parse_tgf_node_list rest with
        | none => none
        | some (ns, rem) => some (n :: ns, rem) := by
  conv_lhs => unfold parse_tgf_node_list
  rw [if_neg hsw, hp]

/-- The node-section parser recovers every encoded node (as its decoded
image) and hands the remaining lines past the `#` separator back. -/
theorem parse_node_list_encoder :
    ∀ (g : PGraph) (tail : List String),
      (∀ pr ∈ g, niceNameB pr.1.filename = true) →
      parse_tgf_node_list ((g.map fun pr => tgfNodeLine pr.1) ++ "#" :: tail)
        = some (g.map fun pr => decodeNode pr.1, tail) := by
  intro g
  induction g with
  | nil =>
    intro tail _
    rw [List.map_nil, List.nil_append, List.map_nil]
    conv_lhs => unfold parse_tgf_node_list
    rw [if_pos (by decide : pyStartsWith '#' (pyStrip "#") = true)]
  | cons pr g ih =>
    intro tail hnice
    have hn := hnice pr (List.mem_cons_self pr g)
    have hdata : (tgfNodeLine pr.1).data
        = dqChar :: ((pr.1.filename.data ++ dqChar :: '\t' :: dqChar ::
            (nodeAttrString pr.1).data) ++ [dqChar]) :=
      quoted_pair_data pr.1.filename (nodeAttrString pr.1)
    have hstrip : pyStrip (tgfNodeLine pr.1) = tgfNodeLine pr.1 :=
      pyStrip_eq_self_of_ends _ dqChar dqChar _ hdata (by decide) (by decide)
    have hsw : ¬pyStartsWith '#' (pyStrip (tgfNodeLine pr.1)) = true := by
      rw [hstrip, pyStartsWith_eq_false '#' _ dqChar _ hdata (by decide)]
      exact Bool.false_ne_true
    rw [List.map_cons, List.cons_append,
      parse_tgf_node_list_cons _ _ (decodeNode pr.1) hsw
        (parseNodeLine_encoder pr.1 hn),
      ih tail (fun q hq => hnice q (List.mem_cons_of_mem _ hq)),
      List.map_cons]

/-- `d[k] = v` then `d.get(k)` yields `v`. -/
theorem assocGet_set_self (m : List (String × IncludeGraphNode)) (k : String)
    (v : IncludeGraphNode) :
    assocGet (assocSet m k v) k = some v := by
  induction m with
  | nil =>
    unfold assocSet assocGet
    rw [if_pos (by simp)]
  | cons p rest ih =>
    obtain ⟨k0, v0⟩ := p
    by_cases h : (k0 == k) = true
    · unfold assocSet
      rw [if_pos h]
      unfold assocGet
      rw [if_pos h]
    · unfold assocSet
      rw [if_neg h]
      unfold assocGet
      rw [if_neg h]
      exact ih

/-- `d[k] = v` leaves every other key's lookup unchanged. -/
theorem assocGet_set_other (m : List (String × IncludeGraphNode))
    (k k2 : String) (v : IncludeGraphNode) (h : k ≠ k2) :
    assocGet (assocSet m k v) k2 = assocGet m k2 := by
  induction m with
  | nil =>
    unfold assocSet assocGet
    rw [if_neg (by simpa using h)]
    rfl
  | cons p rest ih =>
    obtain ⟨k0, v0⟩ := p
    by_cases h0 : (k0 == k) = true
    · unfold assocSet
      rw [if_pos h0]
      have hk0 : k0 = k := by simpa using h0
      unfold assocGet
      rw [if_neg (by simp [hk0, h]), if_neg (by simp [hk0, h])]
    · unfold assocSet
      rw [if_neg h0]
      by_cases h2 : (k0 == k2) = true
      · unfold assocGet
        rw [if_pos h2, if_pos h2]
      · unfold assocGet
        rw [if_neg h2, if_neg h2]
        exact ih

/-- Folding node insertions whose filenames avoid `f` does not change the
lookup at `f`. -/
theorem assocGet_fold_untouched :
    ∀ (ns : List IncludeGraphNode) (m : List (String × IncludeGraphNode))
      (f : String), (∀ q ∈ ns, q.filename ≠ f) →
      assocGet (ns.foldl (fun m2 q => assocSet m2 q.filename q) m) f
        = assocGet m f := by
  intro ns
  induction ns with
  | nil => intro m f _; rfl
  | cons q rest ih =>
    intro m f h
    rw [List.foldl_cons,
      ih _ f (fun p hp => h p (List.mem_cons_of_mem _ hp)),
      assocGet_set_other _ _ _ _ (h q (List.mem_cons_self q rest))]

/-- The node dictionary built by the decoder answers each (duplicate-free)
node's filename with that node. -/
theorem assocGet_fold_mem :
    ∀ (ns : List IncludeGraphNode) (m : List (String × IncludeGraphNode))
      (n : IncludeGraphNode),
      (ns.map IncludeGraphNode.filename).Nodup → n ∈ ns →
      assocGet (ns.foldl (fun m2 q => assocSet m2 q.filename q) m) n.filename
        = some n := by
  intro ns
  induction ns with
  | nil =>
    intro m n _ hmem
    cases hmem
  | cons q rest ih =>
    intro m n hnd hmem
    rw [List.map_cons, List.nodup_cons] at hnd
    rw [List.foldl_cons]
    rcases List.mem_cons.mp hmem with h1 | h2
    · subst h1
      rw [assocGet_fold_untouched rest _ n.filename
        (fun p hp he => hnd.1 (he ▸ List.mem_map_of_mem IncludeGraphNode.filename hp)),
        assocGet_set_self]
    · exact ih _ n hnd.2 h2

/-- Decoding the encoder's edge line looks the two filenames up in the node
dictionary, for tokenizer-safe filenames. -/
theorem parseEdgeLine_encoder (nodes : List (String × IncludeGraphNode))
    (sf tf : String) (hsf : niceNameB sf = true) (htf : niceNameB tf = true) :
    parseEdgeLine nodes (tgfEdgeLine sf tf)
      = match assocGet nodes sf, assocGet nodes tf with
        | some ns, some nt => some (ns, nt)
        | _, _ => none := by
  obtain ⟨_, hsf2⟩ := niceName_props sf hsf
  obtain ⟨_, htf2⟩ := niceName_props tf htf
  unfold parseEdgeLine
  have hdata : (tgfEdgeLine sf tf).data
      = dqChar :: ((sf.data ++ dqChar :: '\t' :: dqChar :: tf.data) ++ [dqChar]) :=
    quoted_pair_data sf tf
  rw [pyStrip_eq_self_of_ends _ dqChar dqChar _ hdata (by decide) (by decide),
    show shlexSplit (tgfEdgeLine sf tf) = some [sf, tf] from
      shlexSplit_two_quoted sf tf
        (fun c hc => ⟨(hsf2 c hc).2.1, (hsf2 c hc).2.2.2⟩)
        (fun c hc => ⟨(htf2 c hc).2.1, (htf2 c hc).2.2.2⟩)]
  show (match assocGet nodes (stripQuotes sf), assocGet nodes (stripQuotes tf) with
    | some ns, some nt => some (ns, nt)
    | _, _ => none) = _
  rw [stripQuotes_eq_self sf (fun c hc => ⟨(hsf2 c hc).2.2.1, (hsf2 c hc).2.1⟩),
    stripQuotes_eq_self tf (fun c hc => ⟨(htf2 c hc).2.2.1, (htf2 c hc).2.1⟩)]

/-- The edge-list fold only appends, so a nonempty accumulator factors
out. -/
theorem edge_fold_shift (nodes : List (String × IncludeGraphNode)) :
    ∀ (lines : List String) (acc : List (IncludeGraphNode × IncludeGraphNode)),
      lines.foldl
        (fun acc2 line =>
          match parseEdgeLine nodes line with
          | some e => acc2 ++ [e]
          | none => acc2) acc
      = acc ++ lines.foldl
          (fun acc2 line =>
            match parseEdgeLine nodes line with
            | some e => acc2 ++ [e]
            | none => acc2) [] := by
  intro lines
  induction lines with
  | nil =>
    intro acc
    rw [List.foldl_nil, List.foldl_nil, List.append_nil]
  | cons l ls ih =>
    intro acc
    rw [List.foldl_cons, List.foldl_cons]
    cases hpe : parseEdgeLine nodes l with
    | none =>
      simp only [hpe]
      exact ih acc
    | some e =>
      simp only [hpe]
      rw [ih (acc ++ [e]), ih ([] ++ [e]), List.nil_append, List.append_assoc]

/-- Folding the encoder's edge lines for one source appends exactly that
source's decoded edges, when both endpoint lookups succeed. -/
theorem edge_block_fold (nodes : List (String × IncludeGraphNode))
    (src : IncludeGraphNode) :
    ∀ (ts : List IncludeGraphNode)
      (acc : List (IncludeGraphNode × IncludeGraphNode)),
      niceNameB src.filename = true →
      assocGet nodes src.filename = some (decodeNode src) →
      (∀ t ∈ ts, niceNameB t.filename = true
        ∧ assocGet nodes t.filename = some (decodeNode t)) →
      (ts.map fun t => tgfEdgeLine src.filename t.filename).foldl
        (fun acc2 line =>
          match parseEdgeLine nodes line with
          | some e => acc2 ++ [e]
          | none => acc2) acc
      = acc ++ ts.map fun t => (decodeNode src, decodeNode t) := by
  intro ts
  induction ts with
  | nil =>
    intro acc _ _ _
    rw [List.map_nil, List.foldl_nil, List.map_nil, List.append_nil]
  | cons t ts ih =>
    intro acc hsrc hs hts
    have ht := hts t (List.mem_cons_self t ts)
    rw [List.map_cons, List.foldl_cons]
    have hpe : parseEdgeLine nodes (tgfEdgeLine src.filename t.filename)
        = some (decodeNode src, decodeNode t) := by
      rw [parseEdgeLine_encoder nodes src.filename t.filename hsrc ht.1, hs, ht.2]
    simp only [hpe]
    rw [ih (acc ++ [(decodeNode src, decodeNode t)]) hsrc hs
        (fun q hq => hts q (List.mem_cons_of_mem _ hq)),
      List.map_cons, List.append_assoc]
    rfl

/-- `parse_tgf_edge_list` on the encoder's edge section recovers every edge
pointwise decoded. -/
theorem parse_tgf_edge_list_encoder :
    ∀ (g : PGraph) (nodes : List (String × IncludeGraphNode)),
      (∀ pr ∈ g, niceNameB pr.1.filename = true
        ∧ assocGet nodes pr.1.filename = some (decodeNode pr.1)
        ∧ ∀ t ∈ pr.2, niceNameB t.filename = true
            ∧ assocGet nodes t.filename = some (decodeNode t)) →
      parse_tgf_edge_list
        ((g.map fun pr => pr.2.map fun t =>
          tgfEdgeLine pr.1.filename t.filename).flatten) nodes
      = g.flatMap fun pr => pr.2.map fun t => (decodeNode pr.1, decodeNode t) := by
  intro g
  induction g with
  | nil =>
    intro nodes _
    rfl
  | cons pr g ih =>
    intro nodes h
    have hpr := h pr (List.mem_cons_self pr g)
    unfold parse_tgf_edge_list
    rw [List.map_cons, List.flatten_cons, List.foldl_append,
      edge_block_fold nodes pr.1 pr.2 [] hpr.1 hpr.2.1 hpr.2.2,
      List.nil_append, edge_fold_shift, List.flatMap_cons]
    have ih2 := ih nodes (fun q hq => h q (List.mem_cons_of_mem _ hq))
    unfold parse_tgf_edge_list at ih2
    rw [ih2]

/-- `graph[n] = set()` on a fresh key appends the key. -/
theorem dictSetEmpty_append :
    ∀ (g : PGraph) (n : IncludeGraphNode), (∀ q ∈ g, q.1 ≠ n) →
      dictSetEmpty g n = g ++ [(n, [])] := by
  intro g
  induction g with
  | nil => intro n _; rfl
  | cons q g ih =>
    intro n h
    obtain ⟨k, v⟩ := q
    unfold dictSetEmpty
    rw [if_neg (h (k, v) (List.mem_cons_self _ _)),
      ih n (fun p hp => h p (List.mem_cons_of_mem _ hp)), List.cons_append]

/-- Folding `graph[n] = set()` over duplicate-free fresh nodes lists them in
order with empty target sets. -/
theorem fold_setEmpty_nodup :
    ∀ (ns : List IncludeGraphNode) (g0 : PGraph),
      ns.Nodup → (∀ q ∈ g0, ∀ n ∈ ns, q.1 ≠ n) →
      ns.foldl (fun g2 n => dictSetEmpty g2 n) g0
        = g0 ++ ns.map fun n => (n, []) := by
  intro ns
  induction ns with
  | nil =>
    intro g0 _ _
    rw [List.foldl_nil, List.map_nil, List.append_nil]
  | cons n rest ih =>
    intro g0 hnd h
    rw [List.nodup_cons] at hnd
    rw [List.foldl_cons,
      dictSetEmpty_append g0 n (fun q hq => h q hq n (List.mem_cons_self n rest)),
      ih (g0 ++ [(n, [])]) hnd.2 ?fresh, List.map_cons, List.append_assoc]
    rfl
    case fresh =>
      intro q hq m hm
      rcases List.mem_append.mp hq with h1 | h2
      · exact h q h1 m (List.mem_cons_of_mem _ hm)
      · rw [List.mem_singleton] at h2
        subst h2
        intro he
        have he2 : m = n := (show n = m from he).symm
        exact hnd.1 (he2 ▸ hm)

/-- `graph[src].add(t)` modifies exactly the `src` entry when the keys
before it differ from `src`. -/
theorem dictAddTarget_block :
    ∀ (pre : PGraph) (post : PGraph) (ds t : IncludeGraphNode)
      (acc : List IncludeGraphNode), (∀ q ∈ pre, q.1 ≠ ds) →
      dictAddTarget (pre ++ (ds, acc) :: post) ds t
        = pre ++ (ds, if t ∈ acc then acc else acc ++ [t]) :: post := by
  intro pre
  induction pre with
  | nil =>
    intro post ds t acc _
    rw [List.nil_append, List.nil_append]
    conv_lhs => unfold dictAddTarget
    rw [if_pos rfl]
  | cons q pre ih =>
    intro post ds t acc h
    obtain ⟨k, v⟩ := q
    rw [List.cons_append]
    conv_lhs => unfold dictAddTarget
    rw [if_neg (h (k, v) (List.mem_cons_self _ _)),
      ih post ds t acc (fun p hp => h p (List.mem_cons_of_mem _ hp)),
      List.cons_append]

/-- Folding a duplicate-free batch of `add`s for one source accumulates its
target list in order. -/
theorem addT_fold (ds : IncludeGraphNode) (post : PGraph) :
    ∀ (dts : List IncludeGraphNode) (pre : PGraph)
      (acc : List IncludeGraphNode),
      (∀ q ∈ pre, q.1 ≠ ds) → (acc ++ dts).Nodup →
      dts.foldl (fun gg dt => dictAddTarget gg ds dt) (pre ++ (ds, acc) :: post)
        = pre ++ (ds, acc ++ dts) :: post := by
  intro dts
  induction dts with
  | nil =>
    intro pre acc _ _
    rw [List.foldl_nil, List.append_nil]
  | cons dt dts ih =>
    intro pre acc hpre hnd
    have hni : dt ∉ acc := by
      intro hmem
      have : ¬(acc ++ dt :: dts).Nodup := by
        intro hn
        rcases List.nodup_append.mp hn with ⟨_, _, hdisj⟩
        exact hdisj hmem (List.mem_cons_self dt dts)
      exact this hnd
    rw [List.foldl_cons, dictAddTarget_block pre post ds dt acc hpre,
      if_neg hni, ih pre (acc ++ [dt]) hpre ?nd2]
    · rw [List.append_assoc]
      rfl
    case nd2 =>
      rw [List.append_assoc]
      exact hnd

/-- Replaying the decoded edge list into the freshly keyed graph rebuilds
every decoded target set, block by block. -/
theorem edges_into_graph :
    ∀ (rest : PGraph) (pre : PGraph),
      (pre.map (fun q => q.1) ++ rest.map fun pr => decodeNode pr.1).Nodup →
      (∀ pr ∈ rest, (pr.2.map decodeNode).Nodup) →
      (rest.flatMap fun pr =>
        pr.2.map fun t => (decodeNode pr.1, decodeNode t)).foldl
          (fun gg e => dictAddTarget gg e.1 e.2)
          (pre ++ rest.map fun pr => (decodeNode pr.1, []))
      = pre ++ rest.map fun pr => (decodeNode pr.1, pr.2.map decodeNode) := by
  intro rest
  induction rest with
  | nil =>
    intro pre _ _
    rw [List.flatMap_nil, List.foldl_nil, List.map_nil, List.map_nil]
  | cons pr rest ih =>
    intro pre hnd htnd
    have hpre : ∀ q ∈ pre, q.1 ≠ decodeNode pr.1 := by
      intro q hq he
      rw [List.map_cons] at hnd
      rcases List.nodup_append.mp hnd with ⟨_, _, hdisj⟩
      exact hdisj (he ▸ List.mem_map_of_mem (fun q2 => q2.1) hq)
        (List.mem_cons_self _ _)
    rw [List.flatMap_cons, List.foldl_append, List.map_cons, List.map_cons,
      show (pr.2.map fun t => (decodeNode pr.1, decodeNode t))
          = ((pr.2.map decodeNode).map fun dt => (decodeNode pr.1, dt)) by
        rw [List.map_map]
        rfl]
    rw [List.foldl_map]
    have hblock := addT_fold (decodeNode pr.1)
      (rest.map fun pr2 => (decodeNode pr2.1, [])) (pr.2.map decodeNode) pre []
      hpre (by rw [List.nil_append]; exact htnd pr (List.mem_cons_self pr rest))
    rw [List.nil_append] at hblock
    rw [hblock]
    have hre : pre ++ (decodeNode pr.1, pr.2.map decodeNode)
          :: rest.map (fun pr2 => (decodeNode pr2.1, []))
        = (pre ++ [(decodeNode pr.1, pr.2.map decodeNode)])
          ++ rest.map fun pr2 => (decodeNode pr2.1, []) := by
      rw [List.append_assoc]
      rfl
    rw [hre, ih (pre ++ [(decodeNode pr.1, pr.2.map decodeNode)]) ?nd
      (fun q hq => htnd q (List.mem_cons_of_mem _ hq)), List.append_assoc]
    · rfl
    case nd =>
      rw [List.map_append]
      rw [List.map_cons] at hnd
      have e : pre.map (fun q => q.1)
            ++ decodeNode pr.1 :: rest.map (fun pr2 => decodeNode pr2.1)
          = (pre.map (fun q => q.1)
            ++ [(decodeNode pr.1, pr.2.map decodeNode).1])
            ++ rest.map fun pr2 => decodeNode pr2.1 := by
        rw [List.append_assoc]
        rfl
      rw [e] at hnd
      exact hnd

/-- Reducing `parse_tgf_graph` once the node section has parsed. -/
theorem parse_tgf_graph_eq (input : List String) (nl : List IncludeGraphNode)
    (rest : List String) (h : parse_tgf_node_list input = some (nl, rest)) :
    parse_tgf_graph input
      = some ((parse_tgf_edge_list rest
          (nl.foldl (fun m n => assocSet m n.filename n) [])).foldl
            (fun g2 pr => dictAddTarget g2 pr.1 pr.2)
            (nl.foldl (fun g2 n => dictSetEmpty g2 n) [])) := by
  unfold parse_tgf_graph
  rw [h]

/-- C2 (amended): serializing a graph with the interchange encoder
`output_dep_graph_tgf` and decoding the output with `parse_tgf_graph`
returns exactly the original graph with every node decoded — the same
node paths in order, the three boolean attributes unchanged, and the same
edges — with every in-edge counter reset to the dataclass default 0,
provided every filename is nonempty and free of whitespace, single and
double quotes, and backslashes, the filenames are distinct, the target
sets are duplicate-free, and every edge target is itself a graph key.
The unamended universal claim is refuted by the counterexample theorem on
`quoteyGraph` (a filename containing a quote loses it in decoding). -/
theorem tgf_round_trip (g : PGraph)
    (hnd : (g.map fun pr => pr.1.filename).Nodup)
    (hnice : ∀ pr ∈ g, niceNameB pr.1.filename = true)
    (htnd : ∀ pr ∈ g, pr.2.Nodup)
    (htgt : ∀ pr ∈ g, ∀ t ∈ pr.2, ∃ pr2 ∈ g, pr2.1 = t) :
    parse_tgf_graph (output_dep_graph_tgf g)
      = some (g.map fun pr => (decodeNode pr.1, pr.2.map decodeNode)) := by
  have hlines : output_dep_graph_tgf g
      = (g.map fun pr => tgfNodeLine pr.1)
        ++ "#" :: (g.map fun pr => pr.2.map fun t =>
            tgfEdgeLine pr.1.filename t.filename).flatten := by
    unfold output_dep_graph_tgf
    rw [List.append_assoc]
    rfl
  rw [hlines, parse_tgf_graph_eq _ (g.map fun pr => decodeNode pr.1) _
    (parse_node_list_encoder g _ hnice)]
  have hfn : (g.map fun pr => decodeNode pr.1).map IncludeGraphNode.filename
      = g.map fun pr => pr.1.filename := by
    rw [List.map_map]
    rfl
  have hfnd : ((g.map fun pr => decodeNode pr.1).map
      IncludeGraphNode.filename).Nodup := by
    rw [hfn]
    exact hnd
  have hndl : (g.map fun pr => decodeNode pr.1).Nodup := List.Nodup.of_map _ hfnd
  have hlook : ∀ pr2 ∈ g,
      assocGet ((g.map fun pr => decodeNode pr.1).foldl
        (fun m n => assocSet m n.filename n) []) pr2.1.filename
      = some (decodeNode pr2.1) := by
    intro pr2 h2
    exact assocGet_fold_mem _ [] (decodeNode pr2.1) hfnd
      (List.mem_map_of_mem _ h2)
  have htlook : ∀ t : IncludeGraphNode, (∃ pr2 ∈ g, pr2.1 = t) →
      assocGet ((g.map fun pr => decodeNode pr.1).foldl
        (fun m n => assocSet m n.filename n) []) t.filename
      = some (decodeNode t) := by
    rintro t ⟨pr2, h2, he⟩
    have hx := hlook pr2 h2
    rw [he] at hx
    exact hx
  have hperblock : ∀ pr ∈ g, ∀ t ∈ pr.2, niceNameB t.filename = true := by
    intro pr hpr t ht
    obtain ⟨pr2, h2, he⟩ := htgt pr hpr t ht
    rw [← he]
    exact hnice pr2 h2
  have hedges := parse_tgf_edge_list_encoder g
    ((g.map fun pr => decodeNode pr.1).foldl
      (fun m n => assocSet m n.filename n) [])
    (fun pr hpr => ⟨hnice pr hpr, hlook pr hpr,
      fun t ht => ⟨hperblock pr hpr t ht, htlook t (htgt pr hpr t ht)⟩⟩)
  rw [hedges]
  have hgraph : (g.map fun pr => decodeNode pr.1).foldl
      (fun g2 n => dictSetEmpty g2 n) []
      = g.map fun pr => (decodeNode pr.1, []) := by
    rw [fold_setEmpty_nodup _ [] hndl
        (fun q hq => absurd hq (List.not_mem_nil q)),
      List.nil_append, List.map_map]
    rfl
  rw [hgraph]
  have hdinj : ∀ pr ∈ g, (pr.2.map decodeNode).Nodup := by
    intro pr hpr
    refine List.Nodup.map_on ?_ (htnd pr hpr)
    intro t ht t2 ht2 he
    obtain ⟨k, hk, hke⟩ := htgt pr hpr t ht
    obtain ⟨k2, hk2, hk2e⟩ := htgt pr hpr t2 ht2
    have hfe : t.filename = t2.filename := by
      have hdc := congrArg IncludeGraphNode.filename he
      exact hdc
    have hke2 : k = k2 := List.inj_on_of_nodup_map hnd hk hk2 (by
      rw [hke, hk2e]
      exact hfe)
    rw [← hke, ← hk2e, hke2]
  have hfinal := edges_into_graph g [] (by
    rw [List.map_nil, List.nil_append]
    exact hndl) hdinj
  simp only [List.nil_append] at hfinal
  rw [hfinal]

/-- Concrete instance of the amended round trip: the well-behaved two-node
witness graph encodes and decodes back to its decoded image. -/
theorem tgf_round_trip_witness :
    (rtWitnessGraph.map fun pr => pr.1.filename).Nodup
    ∧ (∀ pr ∈ rtWitnessGraph, niceNameB pr.1.filename = true)
    ∧ (∀ pr ∈ rtWitnessGraph, pr.2.Nodup)
    ∧ (∀ pr ∈ rtWitnessGraph, ∀ t ∈ pr.2, ∃ pr2 ∈ rtWitnessGraph, pr2.1 = t)
    ∧ parse_tgf_graph (output_dep_graph_tgf rtWitnessGraph)
        = some (rtWitnessGraph.map fun pr =>
            (decodeNode pr.1, pr.2.map decodeNode)) :=
  ⟨by decide, by decide, by decide, by decide,
    tgf_round_trip rtWitnessGraph (by decide) (by decide) (by decide) (by decide)⟩
